import Mathlib

/-!
Verification of the `kvlog` log-record renderer (package `kvlog` of
`karlmutch/kv`, file `kvlog/kvlog.go`).

The Go code is shallowly embedded: strings are `List Char` (one element per
Unicode code point; the Go code works on UTF-8 bytes, but every byte-level
operation it performs — the regex scans, `strings.HasPrefix` with ASCII
patterns, slicing off the matched ASCII header — splits at rune boundaries,
so the rune-level model is byte-faithful; the one place where the code uses
a byte count, `punctLen = size` from `utf8.DecodeRune`, is kept as the
UTF-8 byte size `utf8Len`).  The output buffer assembled by `Write` is
modelled structurally as a list of lines of `Item`s; `outBytes` flattens it
to the exact character sequence the Go code writes to `w.Out`.
-/

set_option autoImplicit false

namespace Kvlog

/-! ### Character classes and fixed tables (kvlog.go lines 23-48) -/

/-- Go regexp `\s` as used by `whiteSpaceRE`/`blackSpaceRE`:
the ASCII class `[\t\n\f\r ]`. -/
def isWS (c : Char) : Bool :=
  c == ' ' || c == '\t' || c == '\n' || c == '\x0C' || c == '\r'

/-- Character class of `blackSpaceRE`: `[^\s,]`. -/
def isBlack (c : Char) : Bool :=
  !(isWS c) && !(c == ',')

/-- Go `unicode.IsSpace`: the Unicode `White_Space` property. -/
def unicodeIsSpace (c : Char) : Bool :=
  c == ' ' || c == '\t' || c == '\n' || c == '\x0B' || c == '\x0C' || c == '\r'
    || c == '\u0085' || c == '\u00A0' || c == '\u1680'
    || (0x2000 ≤ c.val && c.val ≤ 0x200A)
    || c == '\u2028' || c == '\u2029' || c == '\u202F' || c == '\u205F'
    || c == '\u3000'

/-- UTF-8 byte length of a code point (the `size` returned by
`utf8.DecodeRune`). -/
def utf8Len (c : Char) : Nat :=
  if c.val < 0x80 then 1
  else if c.val < 0x800 then 2
  else if c.val < 0x10000 then 3
  else 4

/-- Marker `"debug:"` from `verbosePrefixes` (kvlog.go line 37). -/
def debugMark : List Char := ['d', 'e', 'b', 'u', 'g', ':']

/-- Marker `"trace:"` from `verbosePrefixes` (kvlog.go line 38). -/
def traceMark : List Char := ['t', 'r', 'a', 'c', 'e', ':']

/-- Marker `"error:"`, the single entry of `errorPrefixes` (kvlog.go line 43). -/
def errorMark : List Char := ['e', 'r', 'r', 'o', 'r', ':']

/-- ASCII lower-casing, the case folding relevant to `bytes.EqualFold`
against the all-ASCII pattern `"error:"` (no non-ASCII code point
case-folds to `e`, `r`, `o` or `:`, so ASCII folding is exact here;
a 6-byte slice of `bs` that cuts a multi-byte rune can never fold-match
the pattern either, so comparing the first 6 runes is also exact). -/
def asciiLower (c : Char) : Char :=
  if 'A' ≤ c ∧ c ≤ 'Z' then Char.ofNat (c.val.toNat + 32) else c

/-- Test from kvlog.go lines 229-236: `len(bs) >= len(p) &&
bytes.EqualFold(bs[:len(p)], p)` for `p = "error:"`. -/
def isErrorTok (bs : List Char) : Bool :=
  errorMark.length ≤ bs.length &&
    (bs.take errorMark.length).map asciiLower == errorMark.map asciiLower

/-- Escape character `\x1b`. -/
def escChar : Char := Char.ofNat 27

/-- Bytes of `"\x1b[0;31m"` (set foreground red, kvlog.go line 238). -/
def redSeq : List Char := [escChar, '[', '0', ';', '3', '1', 'm']

/-- Bytes of `"\x1b[0m"` (reset, kvlog.go line 240). -/
def resetSeq : List Char := [escChar, '[', '0', 'm']

/-! ### Header extractor (`headerRE`, kvlog.go line 27, applied at 131-138)

`headerRE = ^(\d{4}/\d\d/\d\d )?(\d\d:\d\d:\d\d(\.\d{0,6})? )?`.
Both groups are optional and greedy; the fractional part `\.\d{0,6}`
backtracks only into total failure (fewer digits always leave a digit,
never the required space, in front), so the match is the deterministic
"try the date, then try the time" parse implemented here. -/

/-- Digit test at an index (`\d` in a Go regexp is ASCII `[0-9]`). -/
def digAt (p : List Char) (i : Nat) : Bool :=
  match p.get? i with
  | some c => c.isDigit
  | none => false

/-- Literal-character test at an index. -/
def chAt (p : List Char) (i : Nat) (c : Char) : Bool :=
  p.get? i == some c

/-- Shape `\d{4}/\d\d/\d\d␣` of an 11-character candidate. -/
def dateOk (p : List Char) : Bool :=
  p.length == 11 &&
    digAt p 0 && digAt p 1 && digAt p 2 && digAt p 3 && chAt p 4 '/' &&
    digAt p 5 && digAt p 6 && chAt p 7 '/' && digAt p 8 && digAt p 9 &&
    chAt p 10 ' '

/-- Shape `\d\d:\d\d:\d\d` of an 8-character candidate. -/
def timeBaseOk (p : List Char) : Bool :=
  p.length == 8 &&
    digAt p 0 && digAt p 1 && chAt p 2 ':' && digAt p 3 && digAt p 4 &&
    chAt p 5 ':' && digAt p 6 && digAt p 7

/-- Match of the optional date group at the front of `s`. -/
def matchDate (s : List Char) : Option (List Char × List Char) :=
  if dateOk (s.take 11) then some (s.take 11, s.drop 11) else none

/-- Match of the optional time group (with optional fraction and the
mandatory trailing space) at the front of `s`. -/
def matchTime (s : List Char) : Option (List Char × List Char) :=
  if timeBaseOk (s.take 8) then
    match s.drop 8 with
    | '.' :: r2 =>
      let ds := r2.takeWhile Char.isDigit
      if ds.length ≤ 6 then
        match r2.dropWhile Char.isDigit with
        | ' ' :: r4 => some (s.take 8 ++ '.' :: ds ++ [' '], r4)
        | _ => none
      else none
    | ' ' :: r4 => some (s.take 8 ++ [' '], r4)
    | _ => none
  else none

/-- Prefix matched by `headerRE` (`FindStringSubmatch` always succeeds,
possibly with an empty match, so `Write` always strips this prefix). -/
def hdrMatch (s : List Char) : List Char :=
  match matchDate s with
  | some (d, r) =>
    d ++ (match matchTime r with
          | some (t, _) => t
          | none => [])
  | none =>
    match matchTime s with
    | some (t, _) => t
    | none => []

/-- Message text with the matched header removed (kvlog.go line 136). -/
def stripHeader (s : List Char) : List Char :=
  s.drop (hdrMatch s).length

/-- Continuation indent length: `len(prefix)` spaces if a header was
matched, else the fixed 4 spaces (kvlog.go lines 148-153). -/
def indentLenOf (hdr : List Char) : Nat :=
  if 0 < hdr.length then hdr.length else 4

/-! ### Output model

`Write` assembles a `bytes.Buffer`.  The buffer is modelled as a list of
lines, each line a list of `Item`s recording the individual `sb.Write*`
calls; `outBytes` flattens it to the exact bytes written.  The `tok` item
carries the black-space run, the attached punctuation rune (written right
after the branch at kvlog.go lines 250-253), whether it was emitted inside
the `\x1b[0;31m`/`\x1b[0m` pair, and — as ghost information not affecting
the bytes — whether it was emitted by the line-wrapping branch
(kvlog.go lines 217-221). -/

inductive Item where
  | hdrI : List Char → Item
  | indentI : Nat → Item
  | spaceI : Item
  | tok : List Char → Option Char → Bool → Bool → Item
  | textI : List Char → Item
  | keyvalI : List Char → Item
deriving DecidableEq, Repr

/-- Bytes of the attached punctuation rune, if any. -/
def pcBytes : Option Char → List Char
  | some c => [c]
  | none => []

/-- Bytes of one buffer item. -/
def flatItem : Item → List Char
  | Item.hdrI s => s
  | Item.indentI n => List.replicate n ' '
  | Item.spaceI => [' ']
  | Item.tok bs pc colored _ =>
    (if colored then redSeq ++ bs ++ resetSeq else bs) ++ pcBytes pc
  | Item.textI s => s
  | Item.keyvalI s => s

/-- Bytes of one line (without its terminating newline). -/
def flatLine (L : List Item) : List Char :=
  (L.map flatItem).flatten

/-- Bytes of the whole buffer: every line is terminated by `"\n"`
(`newline`, kvlog.go line 32; written before each continuation line and
once at the end, which amounts to terminating every line). -/
def outBytes (lines : List (List Item)) : List Char :=
  (lines.map (fun L => flatLine L ++ ['\n'])).flatten

/-- Width contribution an item adds to the running column counter `col`:
rune counts for text, `len(indent)` for the indent, 1 for a space, and
for a token its rune count plus the byte length of the attached
punctuation (`col += punctLen`, kvlog.go line 252).  Escape sequences
contribute nothing, mirroring that `col` only ever counts `bsLen`,
`wsLen`, `punctLen` and indent/header lengths. -/
def itemVis : Item → Nat
  | Item.hdrI s => s.length
  | Item.indentI n => n
  | Item.spaceI => 1
  | Item.tok bs pc _ _ =>
    bs.length + (match pc with | some c => utf8Len c | none => 0)
  | Item.textI s => s.length
  | Item.keyvalI s => s.length

/-- Visible width of a line, as accounted by `col`. -/
def lineVis (L : List Item) : Nat :=
  (L.map itemVis).sum

/-- Result of a rendering stage: `ext` extends the line that was open when
the stage started, `more` is the (possibly empty) list of lines the stage
opened afterwards — the last of `more` is the line left open — and `col`
is the final column counter. -/
structure StageOut where
  ext : List Item
  more : List (List Item)
  col : Nat
deriving Repr

/-- Append items to the last line of a non-empty line list. -/
def extendLast : List (List Item) → List Item → List (List Item)
  | [], e => [e]
  | [l], e => [l ++ e]
  | l :: l' :: ls, e => l :: extendLast (l' :: ls) e

/-! ### The token scanner (one iteration of the loop at kvlog.go 186-215) -/

/-- One scan step: the leading whitespace run (`whiteSpaceRE.Find`), the
black-space run (`blackSpaceRE.Find`), the trailing punctuation rune if
the next rune is not `unicode.IsSpace`, and the unconsumed remainder. -/
structure Scan where
  ws : List Char
  bs : List Char
  pc : Option Char
  rest : List Char

/-- Scanner for one loop iteration (kvlog.go lines 187-215): `ws` is
`whiteSpaceRE.Find(in)`, `bs` is `blackSpaceRE.Find` of the remainder, and
`pc` is the decoded next rune when it is not `unicode.IsSpace`. -/
def nextTok (inp : List Char) : Scan :=
  match (inp.dropWhile isWS).dropWhile isBlack with
  | [] =>
    ⟨inp.takeWhile isWS, (inp.dropWhile isWS).takeWhile isBlack, none, []⟩
  | c :: cs =>
    if unicodeIsSpace c then
      ⟨inp.takeWhile isWS, (inp.dropWhile isWS).takeWhile isBlack, none, c :: cs⟩
    else
      ⟨inp.takeWhile isWS, (inp.dropWhile isWS).takeWhile isBlack, some c, cs⟩

/-- Column width `wsLen` of a whitespace run: 1 if present (kvlog.go 191-194). -/
def wsLenOf (ws : List Char) : Nat :=
  if ws.isEmpty then 0 else 1

/-- Column width `punctLen` of the attached punctuation (byte size of the
rune, kvlog.go lines 207-214). -/
def pcLenOf : Option Char → Nat
  | some c => utf8Len c
  | none => 0

/-! ### The wrapping loop (kvlog.go lines 185-254)

The loop consumes at least one rune per iteration; it is given here with
an explicit fuel argument (instantiated with the input length) so that it
is structurally recursive and computable by the kernel. -/

/-- Wrapping loop body.  `fuel ≥ inp.length` always holds at the call
sites, so the `0` fuel case (which can then only see `inp = []`) returns
the same value as the main body would. -/
def wrapLoopF (width indentLen : Nat) (color : Bool) :
    Nat → List Char → Nat → StageOut
  | 0, _, col => ⟨[], [], col⟩
  | _ + 1, [], col => ⟨[], [], col⟩
  | fuel + 1, a :: inp', col =>
    let t := nextTok (a :: inp')
    let wsLen := wsLenOf t.ws
    let bsLen := t.bs.length
    let punctLen := pcLenOf t.pc
    if bsLen + wsLen + punctLen + col > width then
      let r := wrapLoopF width indentLen color fuel t.rest
        (indentLen + bsLen + punctLen)
      ⟨[], ((Item.indentI indentLen :: Item.tok t.bs t.pc false true :: []) ++ r.ext) :: r.more,
        r.col⟩
    else
      let r := wrapLoopF width indentLen color fuel t.rest
        (col + wsLen + bsLen + punctLen)
      ⟨(if t.ws.isEmpty then [] else [Item.spaceI]) ++
          Item.tok t.bs t.pc (color && isErrorTok t.bs) false :: r.ext,
        r.more, r.col⟩

/-! ### The key/value loop (kvlog.go lines 267-282) -/

/-- Key/value placement loop.  `ns` is `needSpace` (0 or 1). -/
def kvLoop (width indentLen : Nat) : List (List Char) → Nat → Nat → StageOut
  | [], col, _ => ⟨[], [], col⟩
  | kv :: rest, col, ns =>
    if kv.length + ns + col > width then
      let r := kvLoop width indentLen rest (indentLen + kv.length) 1
      ⟨[], ((Item.indentI indentLen :: Item.keyvalI kv :: []) ++ r.ext) :: r.more, r.col⟩
    else
      let r := kvLoop width indentLen rest (col + ns + kv.length) 1
      ⟨(if 0 < ns then [Item.spaceI] else []) ++ Item.keyvalI kv :: r.ext,
        r.more, r.col⟩

/-! ### Assembly of `Write`'s buffer (kvlog.go lines 175-284) -/

/-- Message-text stage: the wrap path (taken when the text does not fit on
the current line, or whenever color output is active, kvlog.go line 182),
the verbatim fast path (lines 256-265), or nothing for empty text.
Returns the stage output and the resulting `needSpace`. -/
def msgOut (width indentLen : Nat) (color : Bool) (text : List Char)
    (col0 : Nat) : StageOut × Nat :=
  if width < col0 + text.length || color then
    (wrapLoopF width indentLen color text.length text col0, 1)
  else if 0 < text.length then
    (⟨[Item.textI text], [], col0 + text.length⟩, 1)
  else
    (⟨[], [], col0⟩, 0)

/-- Lines of the message part only (header plus wrapped or verbatim
text), before the key/value section is appended. -/
def msgLines (width : Nat) (color : Bool) (hdr text : List Char) :
    List (List Item) :=
  let s := msgOut width (indentLenOf hdr) color text hdr.length
  (Item.hdrI hdr :: s.1.ext) :: s.1.more

/-- All lines of the buffer `Write` assembles for a non-suppressed record:
header, wrapped or verbatim message text, then the key/value section. -/
def renderLines (width : Nat) (color : Bool) (hdr text : List Char)
    (kvs : List (List Char)) : List (List Item) :=
  let indentLen := indentLenOf hdr
  let s := msgOut width indentLen color text hdr.length
  let k := kvLoop width indentLen kvs s.1.col s.2
  extendLast ((Item.hdrI hdr :: s.1.ext) :: s.1.more) k.ext ++ k.more

/-! ### The `Write` entry point (kvlog.go lines 128-290)

`kv.Parse` is an external collaborator; its result `msg` (free text plus
the `List` of alternating keys and values) is the input of the model.  A
list element is either a string or some other value; `kv.P(k, v).String()`
is an arbitrary external rendering function `kvP`.  The two panics the
pair loop can raise — the index-out-of-range on `msg.List[i+1]` and the
type assertion `msg.List[i].(string)` — are modelled by `Option`. -/

/-- Element of the parsed `msg.List`: a string (the only type the key
assertion accepts) or any other value. -/
inductive KVal where
  | str : List Char → KVal
  | other : KVal
deriving DecidableEq, Repr

/-- Parsed record, the result of `kv.Parse` (kvlog.go line 129). -/
structure Msg where
  text : List Char
  list : List KVal
deriving DecidableEq, Repr

/-- Pair-rendering loop (kvlog.go lines 162-173): walks the list two at a
time, asserting each key is a string; `none` models a panic (either the
failed type assertion on a non-string key, or the out-of-range access
`msg.List[i+1]` when the list has odd length — for an odd-length list
whose last element is a string the assertion succeeds first and the index
access panics, so both shapes of bad tail give `none`). -/
def extractPairs (kvP : List Char → KVal → List Char) :
    List KVal → Option (List (List Char))
  | [] => some []
  | [_] => none
  | KVal.str k :: v :: rest =>
    (extractPairs kvP rest).map (fun l => kvP k v :: l)
  | KVal.other :: _ :: _ => none

/-- Precondition under which the pair loop is panic-free, in the loop's
own terms. -/
def validList : List KVal → Bool
  | [] => true
  | [_] => false
  | KVal.str _ :: _ :: rest => validList rest
  | KVal.other :: _ :: _ => false

/-- Writer configuration: the width returned by `w.Width()`, the
`Verbose` flag and the `colorOutput` flag. -/
structure Writer where
  width : Nat
  verbose : Bool
  colorOutput : Bool
deriving DecidableEq, Repr

/-- Method `NoColor` (kvlog.go lines 106-110): suppresses color output. -/
def Writer.noColor (w : Writer) : Writer :=
  { w with colorOutput := false }

/-- Whether the record is suppressed (kvlog.go lines 139-146): verbose
mode off and the post-strip text starts with `"debug:"` or `"trace:"`. -/
def suppressed (verbose : Bool) (text : List Char) : Bool :=
  !verbose && (debugMark.isPrefixOf text || traceMark.isPrefixOf text)

/-- Model of `Writer.Write`.  The sink `w.Out.Write` is an arbitrary
function from the buffer to a byte count and an optional error of any
type `E`; the result carries the returned pair together with the list of
buffers passed to the sink (so "no retry" and "nothing further emitted"
are observable).  `none` models a panic in the pair loop. -/
def write {E : Type} (w : Writer) (kvP : List Char → KVal → List Char)
    (msg : Msg) (sink : List Char → Nat × Option E) :
    Option ((Nat × Option E) × List (List Char)) :=
  let hdr := hdrMatch msg.text
  let text := msg.text.drop hdr.length
  if suppressed w.verbose text then
    some ((0, none), [])
  else
    match extractPairs kvP msg.list with
    | none => none
    | some kvs =>
      let buf := outBytes (renderLines w.width w.colorOutput hdr text kvs)
      some (sink buf, [buf])

/-! ### Predicates used by the stated properties -/

/-- Items placed atomically by the wrapper: a word token (black-space run
with its attached punctuation) or a rendered key/value pair. -/
def isTokLike : Item → Bool
  | Item.tok _ _ _ _ => true
  | Item.keyvalI _ => true
  | _ => false

/-- Property "no line overflow" for one line, as claimed: the line fits in
the width, or it carries an unbreakable token wider than the width minus
the continuation indent (in integers `itemVis it > width - indentLen`,
rendered over `Nat` as `width < indentLen + itemVis it`). -/
def lineOkC1 (width indentLen : Nat) (L : List Item) : Prop :=
  lineVis L ≤ width ∨ ∃ it ∈ L, isTokLike it = true ∧ width < indentLen + itemVis it

instance (width indentLen : Nat) (L : List Item) :
    Decidable (lineOkC1 width indentLen L) := by
  unfold lineOkC1; infer_instance

/-- Amended per-line property: as `lineOkC1`, or the line is the bare
header prefix line of a header wider than the width. -/
def lineOkAmended (width : Nat) (hdr : List Char) (L : List Item) : Prop :=
  lineOkC1 width (indentLenOf hdr) L ∨ (L = [Item.hdrI hdr] ∧ width < hdr.length)

/-- Color flags erased from a token item (the bytes both renderings share). -/
def eraseItem : Item → Item
  | Item.tok bs pc _ wfl => Item.tok bs pc false wfl
  | it => it

/-- Rendered key/value texts of a buffer, in emission order. -/
def kvTexts (lines : List (List Item)) : List (List Char) :=
  lines.flatten.filterMap
    (fun it => match it with | Item.keyvalI s => some s | _ => none)

/-- Test for two adjacent `\s` characters. -/
def noDoubleWS : List Char → Bool
  | a :: b :: r => !(isWS a && isWS b) && noDoubleWS (b :: r)
  | _ => true

/-- Test for the items that form a line's left margin. -/
def isLead : Item → Bool
  | Item.hdrI _ => true
  | Item.indentI _ => true
  | _ => false

/-- Leading header/indent items of a line removed, keeping its content. -/
def stripLead (L : List Item) : List Item :=
  L.dropWhile isLead

/-! ### Small list lemmas -/

theorem length_lt_of_dropWhile_tail {p : Char → Bool} {l : List Char}
    {c : Char} {cs : List Char} (h : l.dropWhile p = c :: cs) :
    cs.length < l.length := by
  have h1 : (l.dropWhile p).length ≤ l.length := (List.dropWhile_sublist _).length_le
  rw [h] at h1
  simpa using Nat.lt_of_lt_of_le (Nat.lt_succ_self _) h1

theorem takeWhile_nil_head {p : Char → Bool} {c : Char} {cs : List Char}
    (h1 : (c :: cs).takeWhile p = []) : p c = false := by
  by_contra hc
  have hc' : p c = true := by
    cases hpc : p c
    · exact absurd hpc hc
    · rfl
  simp [List.takeWhile, hc'] at h1

theorem dropWhile_cons_head {p : Char → Bool} {l : List Char} {c : Char}
    {cs : List Char} (h : l.dropWhile p = c :: cs) : p c = false := by
  have w : l.dropWhile p ≠ [] := by simp [h]
  have := List.head_dropWhile_not p l w
  simpa [h] using this

/-! ### Facts about the scanner -/

theorem comma_of_not_ws_not_black {c : Char} (hw : isWS c = false)
    (hb : isBlack c = false) : c = ',' := by
  unfold isBlack at hb
  rw [hw] at hb
  simpa using hb

theorem unicodeIsSpace_comma : unicodeIsSpace ',' = false := by decide

theorem isWS_imp_unicode {c : Char} (h : isWS c = true) :
    unicodeIsSpace c = true := by
  simp only [isWS, Bool.or_eq_true, beq_iff_eq] at h
  rcases h with ((((h | h) | h) | h) | h) <;> subst h <;> decide

theorem nextTok_of_nil {inp : List Char}
    (h : (inp.dropWhile isWS).dropWhile isBlack = []) :
    nextTok inp =
      ⟨inp.takeWhile isWS, (inp.dropWhile isWS).takeWhile isBlack, none, []⟩ := by
  unfold nextTok
  rw [h]

theorem nextTok_of_space {inp : List Char} {c : Char} {cs : List Char}
    (h : (inp.dropWhile isWS).dropWhile isBlack = c :: cs)
    (hsp : unicodeIsSpace c = true) :
    nextTok inp =
      ⟨inp.takeWhile isWS, (inp.dropWhile isWS).takeWhile isBlack, none,
        c :: cs⟩ := by
  unfold nextTok
  rw [h]
  simp [hsp]

theorem nextTok_of_punct {inp : List Char} {c : Char} {cs : List Char}
    (h : (inp.dropWhile isWS).dropWhile isBlack = c :: cs)
    (hsp : unicodeIsSpace c = false) :
    nextTok inp =
      ⟨inp.takeWhile isWS, (inp.dropWhile isWS).takeWhile isBlack, some c,
        cs⟩ := by
  unfold nextTok
  rw [h]
  simp [hsp]

theorem nextTok_ws_eq (inp : List Char) :
    (nextTok inp).ws = inp.takeWhile isWS := by
  rcases hd : (inp.dropWhile isWS).dropWhile isBlack with _ | ⟨c, cs⟩
  · rw [nextTok_of_nil hd]
  · cases hsp : unicodeIsSpace c
    · rw [nextTok_of_punct hd hsp]
    · rw [nextTok_of_space hd hsp]

theorem nextTok_bs_eq (inp : List Char) :
    (nextTok inp).bs = (inp.dropWhile isWS).takeWhile isBlack := by
  rcases hd : (inp.dropWhile isWS).dropWhile isBlack with _ | ⟨c, cs⟩
  · rw [nextTok_of_nil hd]
  · cases hsp : unicodeIsSpace c
    · rw [nextTok_of_punct hd hsp]
    · rw [nextTok_of_space hd hsp]

theorem nextTok_bs_spec (inp : List Char) :
    ∀ x ∈ (nextTok inp).bs, x ∈ inp ∧ isBlack x = true := by
  intro x hx
  rw [nextTok_bs_eq] at hx
  exact ⟨(List.dropWhile_sublist _).mem ((List.takeWhile_sublist _).mem hx),
    List.mem_takeWhile_imp hx⟩

theorem nextTok_ws_spec (inp : List Char) :
    ∀ x ∈ (nextTok inp).ws, x ∈ inp ∧ isWS x = true := by
  intro x hx
  rw [nextTok_ws_eq] at hx
  exact ⟨(List.takeWhile_sublist _).mem hx, List.mem_takeWhile_imp hx⟩

theorem nextTok_pc_spec (inp : List Char) (c : Char)
    (h : (nextTok inp).pc = some c) :
    c ∈ inp ∧ unicodeIsSpace c = false := by
  rcases hd : (inp.dropWhile isWS).dropWhile isBlack with _ | ⟨c', cs⟩
  · rw [nextTok_of_nil hd] at h
    simp at h
  · cases hsp : unicodeIsSpace c'
    · rw [nextTok_of_punct hd hsp] at h
      cases h
      have hc : c ∈ (inp.dropWhile isWS).dropWhile isBlack := by
        rw [hd]
        exact List.mem_cons_self _ _
      exact ⟨(List.dropWhile_sublist _).mem ((List.dropWhile_sublist _).mem hc), hsp⟩
    · rw [nextTok_of_space hd hsp] at h
      simp at h

theorem nextTok_rest_subset (inp : List Char) :
    ∀ x ∈ (nextTok inp).rest, x ∈ inp := by
  intro x hx
  have sub : ∀ y ∈ (inp.dropWhile isWS).dropWhile isBlack, y ∈ inp := fun y hy =>
    (List.dropWhile_sublist _).mem ((List.dropWhile_sublist _).mem hy)
  rcases hd : (inp.dropWhile isWS).dropWhile isBlack with _ | ⟨c', cs⟩
  · rw [nextTok_of_nil hd] at hx
    simp at hx
  · cases hsp : unicodeIsSpace c'
    · rw [nextTok_of_punct hd hsp] at hx
      exact sub x (by rw [hd]; exact List.mem_cons_of_mem _ hx)
    · rw [nextTok_of_space hd hsp] at hx
      exact sub x (by rw [hd]; exact hx)

theorem nextTok_rest_length {inp : List Char} (h : inp ≠ []) :
    (nextTok inp).rest.length < inp.length := by
  obtain ⟨a, as, rfl⟩ : ∃ a as, inp = a :: as := by
    cases inp with
    | nil => exact absurd rfl h
    | cons a as => exact ⟨a, as, rfl⟩
  rcases hd : ((a :: as).dropWhile isWS).dropWhile isBlack with _ | ⟨c, cs⟩
  · rw [nextTok_of_nil hd]
    simp
  · have hlen : (c :: cs).length ≤ ((a :: as).dropWhile isWS).length := by
      rw [← hd]
      exact (List.dropWhile_sublist _).length_le
    have h2 : ((a :: as).dropWhile isWS).length ≤ (a :: as).length :=
      (List.dropWhile_sublist _).length_le
    cases hsp : unicodeIsSpace c with
    | false =>
      rw [nextTok_of_punct hd hsp]
      have h3 := Nat.le_trans hlen h2
      simp only [List.length_cons] at h3 ⊢
      omega
    | true =>
      rw [nextTok_of_space hd hsp]
      cases hws : isWS a with
      | true =>
        have hdw : (a :: as).dropWhile isWS = as.dropWhile isWS := by
          simp [List.dropWhile, hws]
        rw [hdw] at hlen
        have h4 : (as.dropWhile isWS).length ≤ as.length :=
          (List.dropWhile_sublist _).length_le
        simp only [List.length_cons] at hlen ⊢
        omega
      | false =>
        have hdw : (a :: as).dropWhile isWS = a :: as := by
          simp [List.dropWhile, hws]
        rw [hdw] at hd
        cases hbk : isBlack a with
        | true =>
          have hdb : (a :: as).dropWhile isBlack = as.dropWhile isBlack := by
            simp [List.dropWhile, hbk]
          rw [hdb] at hd
          have h4 : (as.dropWhile isBlack).length ≤ as.length :=
            (List.dropWhile_sublist _).length_le
          rw [hd] at h4
          simp only [List.length_cons] at h4 ⊢
          omega
        | false =>
          exfalso
          have hdb : (a :: as).dropWhile isBlack = a :: as := by
            simp [List.dropWhile, hbk]
          rw [hdb] at hd
          have hca : c = a := (List.cons.injEq _ _ _ _ ▸ hd.symm).1
          have ha : a = ',' := comma_of_not_ws_not_black hws hbk
          rw [hca, ha] at hsp
          rw [unicodeIsSpace_comma] at hsp
          exact Bool.false_ne_true hsp

theorem nextTok_empty_rest {inp : List Char}
    (hbs : (nextTok inp).bs = []) (hpc : (nextTok inp).pc = none) :
    (nextTok inp).rest = [] := by
  rcases hd : (inp.dropWhile isWS).dropWhile isBlack with _ | ⟨c', cs⟩
  · rw [nextTok_of_nil hd]
  · exfalso
    have hc_notblack : isBlack c' = false := dropWhile_cons_head hd
    rw [nextTok_bs_eq] at hbs
    have hdbid : (inp.dropWhile isWS).dropWhile isBlack = inp.dropWhile isWS := by
      cases hgw : inp.dropWhile isWS with
      | nil => simp
      | cons d ds =>
        have hd' : isBlack d = false := by
          rw [hgw] at hbs
          exact takeWhile_nil_head hbs
        simp [List.dropWhile, hd']
    rw [hdbid] at hd
    have hc_notws : isWS c' = false := dropWhile_cons_head hd
    have hc : c' = ',' := comma_of_not_ws_not_black hc_notws hc_notblack
    have hsp : unicodeIsSpace c' = false := by rw [hc]; exact unicodeIsSpace_comma
    rw [← hdbid] at hd
    rw [nextTok_of_punct hd hsp] at hpc
    simp at hpc

/-! ### Width bookkeeping lemmas -/

theorem lineVis_nil : lineVis [] = 0 := rfl

theorem lineVis_cons (it : Item) (L : List Item) :
    lineVis (it :: L) = itemVis it + lineVis L := by
  unfold lineVis
  simp

theorem lineVis_append (L M : List Item) :
    lineVis (L ++ M) = lineVis L + lineVis M := by
  unfold lineVis
  simp

theorem lineVis_sp (ws : List Char) :
    lineVis (if ws.isEmpty then [] else [Item.spaceI]) = wsLenOf ws := by
  unfold wsLenOf
  split <;> simp_all [lineVis, itemVis]

theorem itemVis_tok (bs : List Char) (pc : Option Char) (c wfl : Bool) :
    itemVis (Item.tok bs pc c wfl) = bs.length + pcLenOf pc := by
  cases pc <;> rfl

theorem itemVis_indent (n : Nat) : itemVis (Item.indentI n) = n := rfl

theorem itemVis_space : itemVis Item.spaceI = 1 := rfl

/-! ### Invariant of the wrapping loop

For a call with column `col` (the width of the open line so far), the
items appended to the open line either are empty or keep it within
`width`; every line the loop opens satisfies the no-overflow property
`lineOkC1`; and the final column equals the width of whichever line ends
up open. -/

theorem wrapF_inv (width indentLen : Nat) (color : Bool) :
    ∀ fuel inp col, inp.length ≤ fuel →
      ((wrapLoopF width indentLen color fuel inp col).ext = [] ∨
        col + lineVis (wrapLoopF width indentLen color fuel inp col).ext ≤ width) ∧
      (∀ L ∈ (wrapLoopF width indentLen color fuel inp col).more,
        lineOkC1 width indentLen L) ∧
      (((wrapLoopF width indentLen color fuel inp col).more = [] ∧
          (wrapLoopF width indentLen color fuel inp col).col =
            col + lineVis (wrapLoopF width indentLen color fuel inp col).ext) ∨
        (∃ M Ll, (wrapLoopF width indentLen color fuel inp col).more = M ++ [Ll] ∧
          (wrapLoopF width indentLen color fuel inp col).col = lineVis Ll)) := by
  intro fuel
  induction fuel with
  | zero =>
    intro inp col h
    have hnil : inp = [] := List.length_eq_zero.mp (Nat.le_zero.mp h)
    subst hnil
    refine ⟨Or.inl rfl, by simp [wrapLoopF], Or.inl ⟨rfl, ?_⟩⟩
    simp [wrapLoopF, lineVis_nil]
  | succ fuel ih =>
    intro inp col h
    cases inp with
    | nil =>
      refine ⟨Or.inl rfl, by simp [wrapLoopF], Or.inl ⟨rfl, ?_⟩⟩
      simp [wrapLoopF, lineVis_nil]
    | cons a inp' =>
      have hne : (a :: inp')  ≠ [] := by simp
      have hrest : (nextTok (a :: inp')).rest.length ≤ fuel := by
        have h1 := nextTok_rest_length hne
        simp only [List.length_cons] at h1 h
        omega
      unfold wrapLoopF
      dsimp only
      split
      next hgt =>
        obtain ⟨ih1, ih2, ih3⟩ := ih (nextTok (a :: inp')).rest
          (indentLen + (nextTok (a :: inp')).bs.length + pcLenOf (nextTok (a :: inp')).pc)
          hrest
        set r := wrapLoopF width indentLen color fuel (nextTok (a :: inp')).rest
          (indentLen + (nextTok (a :: inp')).bs.length + pcLenOf (nextTok (a :: inp')).pc)
          with hr
        have hvisL0 : lineVis (Item.indentI indentLen ::
            Item.tok (nextTok (a :: inp')).bs (nextTok (a :: inp')).pc false true :: r.ext) =
            indentLen + (nextTok (a :: inp')).bs.length +
              pcLenOf (nextTok (a :: inp')).pc + lineVis r.ext := by
          rw [lineVis_cons, lineVis_cons, itemVis_indent, itemVis_tok]
          omega
        refine ⟨Or.inl rfl, ?_, ?_⟩
        · intro L hL
          rcases List.mem_cons.mp hL with hL0 | hLm

          · by_cases hv : lineVis L ≤ width
            · exact Or.inl hv
            · right
              have hvis : lineVis L = indentLen +
                  itemVis (Item.tok (nextTok (a :: inp')).bs
                    (nextTok (a :: inp')).pc false true) + lineVis r.ext := by
                rw [hL0]
                simp only [List.cons_append, List.nil_append]
                rw [lineVis_cons, lineVis_cons, itemVis_indent]
                omega
              have hext : r.ext = [] := by
                rcases ih1 with he | hle2
                · exact he
                · exfalso
                  apply hv
                  rw [hvis, itemVis_tok]
                  omega
              refine ⟨Item.tok (nextTok (a :: inp')).bs (nextTok (a :: inp')).pc false true,
                ?_, rfl, ?_⟩
              · rw [hL0]
                simp
              · rw [hvis, hext, lineVis_nil] at hv
                omega
          · exact ih2 L hLm
        · rcases ih3 with ⟨hm, hc⟩ | ⟨M, Ll, hm, hc⟩
          · right
            refine ⟨[], (Item.indentI indentLen ::
                Item.tok (nextTok (a :: inp')).bs (nextTok (a :: inp')).pc false true :: []) ++
                  r.ext, ?_, ?_⟩
            · rw [hm]
              simp
            · simp only [List.cons_append, List.nil_append]
              rw [hvisL0, hc]
          · right
            refine ⟨(Item.indentI indentLen ::
                Item.tok (nextTok (a :: inp')).bs (nextTok (a :: inp')).pc false true :: r.ext) :: M,
              Ll, ?_, hc⟩
            rw [hm]
            simp
      next hle =>
        have hcond : (nextTok (a :: inp')).bs.length + wsLenOf (nextTok (a :: inp')).ws +
            pcLenOf (nextTok (a :: inp')).pc + col ≤ width := Nat.le_of_not_lt hle
        obtain ⟨ih1, ih2, ih3⟩ := ih (nextTok (a :: inp')).rest
          (col + wsLenOf (nextTok (a :: inp')).ws + (nextTok (a :: inp')).bs.length +
            pcLenOf (nextTok (a :: inp')).pc)
          hrest
        set r := wrapLoopF width indentLen color fuel (nextTok (a :: inp')).rest
          (col + wsLenOf (nextTok (a :: inp')).ws + (nextTok (a :: inp')).bs.length +
            pcLenOf (nextTok (a :: inp')).pc)
          with hr
        have hvisE : lineVis ((if (nextTok (a :: inp')).ws.isEmpty then []
              else [Item.spaceI]) ++
            Item.tok (nextTok (a :: inp')).bs (nextTok (a :: inp')).pc
              (color && isErrorTok (nextTok (a :: inp')).bs) false :: r.ext) =
            wsLenOf (nextTok (a :: inp')).ws + ((nextTok (a :: inp')).bs.length +
              pcLenOf (nextTok (a :: inp')).pc) + lineVis r.ext := by
          rw [lineVis_append, lineVis_sp, lineVis_cons, itemVis_tok]
          omega
        refine ⟨?_, ih2, ?_⟩
        · right
          rw [hvisE]
          rcases ih1 with he | hle'
          · rw [he, lineVis_nil]
            omega
          · omega
        · rcases ih3 with ⟨hm, hc⟩ | ⟨M, Ll, hm, hc⟩
          · left
            refine ⟨hm, ?_⟩
            rw [hc, hvisE]
            omega
          · exact Or.inr ⟨M, Ll, hm, hc⟩

/-! ### Invariant of the key/value loop (same shape) -/

theorem kvF_inv (width indentLen : Nat) :
    ∀ kvs col ns, ns ≤ 1 →
      ((kvLoop width indentLen kvs col ns).ext = [] ∨
        col + lineVis (kvLoop width indentLen kvs col ns).ext ≤ width) ∧
      (∀ L ∈ (kvLoop width indentLen kvs col ns).more, lineOkC1 width indentLen L) ∧
      (((kvLoop width indentLen kvs col ns).more = [] ∧
          (kvLoop width indentLen kvs col ns).col =
            col + lineVis (kvLoop width indentLen kvs col ns).ext) ∨
        (∃ M Ll, (kvLoop width indentLen kvs col ns).more = M ++ [Ll] ∧
          (kvLoop width indentLen kvs col ns).col = lineVis Ll)) := by
  intro kvs
  induction kvs with
  | nil =>
    intro col ns hns
    refine ⟨Or.inl rfl, by simp [kvLoop], Or.inl ⟨rfl, ?_⟩⟩
    simp [kvLoop, lineVis_nil]
  | cons kv rest ih =>
    intro col ns hns
    unfold kvLoop
    dsimp only
    split
    next hgt =>
      obtain ⟨ih1, ih2, ih3⟩ := ih (indentLen + kv.length) 1 (Nat.le_refl 1)
      set r := kvLoop width indentLen rest (indentLen + kv.length) 1 with hr
      have hvisL0 : lineVis (Item.indentI indentLen :: Item.keyvalI kv :: r.ext) =
          indentLen + kv.length + lineVis r.ext := by
        rw [lineVis_cons, lineVis_cons, itemVis_indent]
        show indentLen + (kv.length + lineVis r.ext) = _
        omega
      refine ⟨Or.inl rfl, ?_, ?_⟩
      · intro L hL
        rcases List.mem_cons.mp hL with hL0 | hLm
        · by_cases hv : lineVis L ≤ width
          · exact Or.inl hv
          · right
            have hvis : lineVis L = indentLen + kv.length + lineVis r.ext := by
              rw [hL0]
              simp only [List.cons_append, List.nil_append]
              exact hvisL0
            have hext : r.ext = [] := by
              rcases ih1 with he | hle2
              · exact he
              · exfalso
                apply hv
                rw [hvis]
                omega
            refine ⟨Item.keyvalI kv, ?_, rfl, ?_⟩
            · rw [hL0]
              simp
            · rw [hvis, hext, lineVis_nil] at hv
              show width < indentLen + kv.length
              omega
        · exact ih2 L hLm
      · rcases ih3 with ⟨hm, hc⟩ | ⟨M, Ll, hm, hc⟩
        · right
          refine ⟨[], (Item.indentI indentLen :: Item.keyvalI kv :: []) ++ r.ext, ?_, ?_⟩
          · rw [hm]
            simp
          · simp only [List.cons_append, List.nil_append]
            rw [hvisL0, hc]
        · right
          refine ⟨((Item.indentI indentLen :: Item.keyvalI kv :: []) ++ r.ext) :: M,
            Ll, ?_, hc⟩
          rw [hm]
          simp
    next hle =>
      have hcond : kv.length + ns + col ≤ width := Nat.le_of_not_lt hle
      obtain ⟨ih1, ih2, ih3⟩ := ih (col + ns + kv.length) 1 (Nat.le_refl 1)
      set r := kvLoop width indentLen rest (col + ns + kv.length) 1 with hr
      have hvisE : lineVis ((if 0 < ns then [Item.spaceI] else []) ++
          Item.keyvalI kv :: r.ext) = ns + kv.length + lineVis r.ext := by
        rw [lineVis_append, lineVis_cons]
        have hsp : lineVis (if 0 < ns then [Item.spaceI] else []) = ns := by
          rcases Nat.le_one_iff_eq_zero_or_eq_one.mp hns with h0 | h1
          · subst h0
            simp [lineVis]
          · subst h1
            simp [lineVis, itemVis]
        rw [hsp]
        show ns + (kv.length + lineVis r.ext) = _
        omega
      refine ⟨?_, ih2, ?_⟩
      · right
        rw [hvisE]
        rcases ih1 with he | hle'
        · rw [he, lineVis_nil]
          omega
        · omega
      · rcases ih3 with ⟨hm, hc⟩ | ⟨M, Ll, hm, hc⟩
        · left
          refine ⟨hm, ?_⟩
          rw [hc, hvisE]
          omega
        · exact Or.inr ⟨M, Ll, hm, hc⟩

/-! ### Invariant of the message stage -/

theorem msgOut_inv (width indentLen : Nat) (color : Bool) (text : List Char)
    (col0 : Nat) :
    ((msgOut width indentLen color text col0).1.ext = [] ∨
      col0 + lineVis (msgOut width indentLen color text col0).1.ext ≤ width) ∧
    (∀ L ∈ (msgOut width indentLen color text col0).1.more,
      lineOkC1 width indentLen L) ∧
    (((msgOut width indentLen color text col0).1.more = [] ∧
        (msgOut width indentLen color text col0).1.col =
          col0 + lineVis (msgOut width indentLen color text col0).1.ext) ∨
      (∃ M Ll, (msgOut width indentLen color text col0).1.more = M ++ [Ll] ∧
        (msgOut width indentLen color text col0).1.col = lineVis Ll)) ∧
    (msgOut width indentLen color text col0).2 ≤ 1 := by
  unfold msgOut
  split
  next hwrap =>
    obtain ⟨h1, h2, h3⟩ :=
      wrapF_inv width indentLen color text.length text col0 (Nat.le_refl _)
    exact ⟨h1, h2, h3, Nat.le_refl 1⟩
  next hfit =>
    split
    next hpos =>
      refine ⟨Or.inr ?_, by simp, Or.inl ⟨rfl, ?_⟩, Nat.le_refl 1⟩
      · have : ¬ (width < col0 + text.length) := by
          intro hcontra
          exact hfit (by simp [hcontra])
        have hle := Nat.le_of_not_lt this
        simp [lineVis, itemVis]
        omega
      · simp [lineVis, itemVis]
    next hzero =>
      exact ⟨Or.inl rfl, by simp, Or.inl ⟨rfl, by simp [lineVis_nil]⟩, by omega⟩

/-! ### Lines of the assembled buffer -/

theorem extendLast_decomp (M : List (List Item)) (e : List Item) (hM : M ≠ []) :
    ∃ M0 Ll, M = M0 ++ [Ll] ∧ extendLast M e = M0 ++ [Ll ++ e] := by
  induction M with
  | nil => exact absurd rfl hM
  | cons l ls ih =>
    cases ls with
    | nil => exact ⟨[], l, by simp, by simp [extendLast]⟩
    | cons l' ls' =>
      obtain ⟨M0, Ll, hM0, hext⟩ := ih (by simp)
      refine ⟨l :: M0, Ll, by rw [List.cons_append, ← hM0], ?_⟩
      show extendLast (l :: l' :: ls') e = l :: M0 ++ [Ll ++ e]
      unfold extendLast
      rw [hext, List.cons_append]

theorem extendLast_flatten (M : List (List Item)) (e : List Item) :
    (extendLast M e).flatten = M.flatten ++ e := by
  induction M with
  | nil => simp [extendLast]
  | cons l ls ih =>
    cases ls with
    | nil => simp [extendLast]
    | cons l' ls' =>
      show (l :: extendLast (l' :: ls') e).flatten = _
      rw [List.flatten_cons, ih, List.flatten_cons]
      simp

theorem extendLast_snoc (M0 : List (List Item)) (Ll e : List Item) :
    extendLast (M0 ++ [Ll]) e = M0 ++ [Ll ++ e] := by
  induction M0 with
  | nil => simp [extendLast]
  | cons l ls ih =>
    rcases hls : ls ++ [Ll] with _ | ⟨m, ms⟩
    · exact absurd hls (by simp)
    · show extendLast (l :: (ls ++ [Ll])) e = _
      rw [hls]
      show l :: extendLast (m :: ms) e = _
      rw [← hls, ih, List.cons_append]

theorem itemVis_hdr (hdr : List Char) : itemVis (Item.hdrI hdr) = hdr.length := rfl

/-- Every line of the assembled buffer satisfies the amended no-overflow
property: it fits, or carries a token/pair wider than `width − indent`,
or is the bare header line of a header wider than `width`. -/
theorem renderLines_lineOk (width : Nat) (color : Bool) (hdr text : List Char)
    (kvs : List (List Char)) :
    ∀ L ∈ renderLines width color hdr text kvs, lineOkAmended width hdr L := by
  intro L hL
  obtain ⟨e1inv, m1inv, c1inv, hns⟩ :=
    msgOut_inv width (indentLenOf hdr) color text hdr.length
  set s := msgOut width (indentLenOf hdr) color text hdr.length with hs
  obtain ⟨e2inv, m2inv, c2inv⟩ := kvF_inv width (indentLenOf hdr) kvs s.1.col s.2 hns
  set k := kvLoop width (indentLenOf hdr) kvs s.1.col s.2 with hk
  have hrl : renderLines width color hdr text kvs =
      extendLast ((Item.hdrI hdr :: s.1.ext) :: s.1.more) k.ext ++ k.more := rfl
  have visH : lineVis (Item.hdrI hdr :: s.1.ext) = hdr.length + lineVis s.1.ext := by
    rw [lineVis_cons, itemVis_hdr]
  have PH : lineOkAmended width hdr (Item.hdrI hdr :: s.1.ext) := by
    by_cases hv : lineVis (Item.hdrI hdr :: s.1.ext) ≤ width
    · exact Or.inl (Or.inl hv)
    · rcases e1inv with he | hle
      · right
        refine ⟨by rw [he], ?_⟩
        rw [visH, he, lineVis_nil] at hv
        omega
      · exact absurd (by rw [visH]; exact hle) hv
  rw [hrl] at hL
  rcases c1inv with ⟨hm1, hc1⟩ | ⟨M, Ll, hm1, hc1⟩
  · rw [hm1] at hL
    have : extendLast [Item.hdrI hdr :: s.1.ext] k.ext =
        [(Item.hdrI hdr :: s.1.ext) ++ k.ext] := by
      simp [extendLast]
    rw [this] at hL
    rcases List.mem_append.mp hL with h1 | h2
    · have hLeq : L = (Item.hdrI hdr :: s.1.ext) ++ k.ext := by
        simpa using h1
      rcases e2inv with he2 | hle2
      · rw [hLeq, he2, List.append_nil]
        exact PH
      · left
        left
        rw [hLeq, lineVis_append, visH]
        rw [hc1] at hle2
        omega
    · exact Or.inl (m2inv L h2)
  · rw [hm1, ← List.cons_append, extendLast_snoc] at hL
    rcases List.mem_append.mp hL with h1 | h2
    · rcases List.mem_append.mp h1 with h3 | h4
      · rcases List.mem_cons.mp h3 with h5 | h6
        · rw [h5]
          exact PH
        · refine Or.inl (m1inv L ?_)
          rw [hm1]
          exact List.mem_append_left _ h6
      · have hLeq : L = Ll ++ k.ext := by simpa using h4
        rcases e2inv with he2 | hle2
        · rw [hLeq, he2, List.append_nil]
          refine Or.inl (m1inv Ll ?_)
          rw [hm1]
          exact List.mem_append_right _ (by simp)
        · left
          left
          rw [hLeq, lineVis_append]
          rw [hc1] at hle2
          omega
    · exact Or.inl (m2inv L h2)

/-! ### Claim C1 -/

/-- Statement of claim C1 as written, for one record: every line of the
rendered output, measured in visible display columns (`lineVis` counts no
escape bytes), is at most the width, except a line carrying an
unbreakable token whose own width exceeds `width − indent`. -/
def c1Stated (width : Nat) (color : Bool) (msgText : List Char)
    (kvs : List (List Char)) : Prop :=
  ∀ L ∈ renderLines width color (hdrMatch msgText) (stripHeader msgText) kvs,
    lineOkC1 width (indentLenOf (hdrMatch msgText)) L

instance (width : Nat) (color : Bool) (msgText : List Char)
    (kvs : List (List Char)) : Decidable (c1Stated width color msgText kvs) := by
  unfold c1Stated
  infer_instance

/-- Claim C1 fails on the record `"2024/01/02 15:04:05 x"` at width 5:
the header prefix is emitted on the first line before any wrapping can
happen, so that line is 20 columns wide, exceeds the width, and carries
no token at all. -/
theorem c1_counterexample :
    ¬ c1Stated 5 false
      ['2', '0', '2', '4', '/', '0', '1', '/', '0', '2', ' ',
       '1', '5', ':', '0', '4', ':', '0', '5', ' ', 'x'] [] := by
  decide

/-- C1 (amended): for every record and every width ≥ 1, every line of the
rendered output, measured in visible display columns (escape bytes
excluded), is at most the width, except a line carrying a single
unbreakable token (a word with its attached punctuation, or a key/value
pair) whose own width exceeds the width minus the continuation-indent
length, and except the first line when the stripped header prefix alone
already exceeds the width (the header is written before wrapping begins). -/
theorem c1_amended (width : Nat) (_hw : 1 ≤ width) (color : Bool)
    (msgText : List Char) (kvs : List (List Char)) :
    ∀ L ∈ renderLines width color (hdrMatch msgText) (stripHeader msgText) kvs,
      lineOkAmended width (hdrMatch msgText) L :=
  renderLines_lineOk width color (hdrMatch msgText) (stripHeader msgText) kvs

/-- Witness for `c1_amended` at width 80 on the record `"hello world"`. -/
theorem c1_amended_witness :
    1 ≤ 80 ∧
      ∀ L ∈ renderLines 80 false
          (hdrMatch ['h', 'e', 'l', 'l', 'o', ' ', 'w', 'o', 'r', 'l', 'd'])
          (stripHeader ['h', 'e', 'l', 'l', 'o', ' ', 'w', 'o', 'r', 'l', 'd']) [],
        lineOkAmended 80
          (hdrMatch ['h', 'e', 'l', 'l', 'o', ' ', 'w', 'o', 'r', 'l', 'd']) L :=
  ⟨by decide,
    c1_amended 80 (by decide) false
      ['h', 'e', 'l', 'l', 'o', ' ', 'w', 'o', 'r', 'l', 'd'] []⟩

/-! ### Color independence of the layout (claim C3)

The loops place items identically whether or not color is active — the
column counter never sees the escape bytes — so erasing the color flags
from a color rendering yields the no-color rendering verbatim, provided
both take the same message path.  The key/value loop does not depend on
color at all. -/

theorem wrapF_erase (width indentLen : Nat) (color : Bool) :
    ∀ fuel inp col,
      (wrapLoopF width indentLen color fuel inp col).ext.map eraseItem =
          (wrapLoopF width indentLen false fuel inp col).ext ∧
        (wrapLoopF width indentLen color fuel inp col).more.map (List.map eraseItem) =
          (wrapLoopF width indentLen false fuel inp col).more ∧
        (wrapLoopF width indentLen color fuel inp col).col =
          (wrapLoopF width indentLen false fuel inp col).col := by
  intro fuel
  induction fuel with
  | zero =>
    intro inp col
    exact ⟨rfl, rfl, rfl⟩
  | succ fuel ih =>
    intro inp col
    cases inp with
    | nil => exact ⟨rfl, rfl, rfl⟩
    | cons a inp' =>
      unfold wrapLoopF
      dsimp only
      by_cases hcond : (nextTok (a :: inp')).bs.length + wsLenOf (nextTok (a :: inp')).ws +
          pcLenOf (nextTok (a :: inp')).pc + col > width
      · rw [if_pos hcond, if_pos hcond]
        obtain ⟨ihe, ihm, ihc⟩ := ih (nextTok (a :: inp')).rest
          (indentLen + (nextTok (a :: inp')).bs.length + pcLenOf (nextTok (a :: inp')).pc)
        refine ⟨rfl, ?_, ihc⟩
        dsimp only
        rw [List.map_cons, ihm]
        congr 1
        simp only [List.cons_append, List.nil_append, List.map_cons]
        rw [ihe]
        rfl
      · rw [if_neg hcond, if_neg hcond]
        obtain ⟨ihe, ihm, ihc⟩ := ih (nextTok (a :: inp')).rest
          (col + wsLenOf (nextTok (a :: inp')).ws + (nextTok (a :: inp')).bs.length +
            pcLenOf (nextTok (a :: inp')).pc)
        refine ⟨?_, ihm, ihc⟩
        dsimp only
        rw [List.map_append, List.map_cons, ihe]
        cases hws : (nextTok (a :: inp')).ws.isEmpty <;> simp [eraseItem]

theorem kvF_erase (width indentLen : Nat) :
    ∀ kvs col ns,
      (kvLoop width indentLen kvs col ns).ext.map eraseItem =
          (kvLoop width indentLen kvs col ns).ext ∧
        (kvLoop width indentLen kvs col ns).more.map (List.map eraseItem) =
          (kvLoop width indentLen kvs col ns).more := by
  intro kvs
  induction kvs with
  | nil =>
    intro col ns
    exact ⟨rfl, rfl⟩
  | cons kv rest ih =>
    intro col ns
    unfold kvLoop
    dsimp only
    split
    · obtain ⟨ihe, ihm⟩ := ih (indentLen + kv.length) 1
      refine ⟨rfl, ?_⟩
      dsimp only
      rw [List.map_cons, ihm]
      congr 1
      simp only [List.cons_append, List.nil_append, List.map_cons]
      rw [ihe]
      rfl
    · obtain ⟨ihe, ihm⟩ := ih (col + ns + kv.length) 1
      refine ⟨?_, ihm⟩
      dsimp only
      rw [List.map_append, List.map_cons, ihe]
      congr 1
      cases h0 : decide (0 < ns) <;> simp_all [eraseItem]

theorem extendLast_map (f : Item → Item) (M : List (List Item)) (e : List Item) :
    (extendLast M e).map (List.map f) =
      extendLast (M.map (List.map f)) (e.map f) := by
  induction M with
  | nil => simp [extendLast]
  | cons l ls ih =>
    cases ls with
    | nil => simp [extendLast]
    | cons l' ls' =>
      show ((l :: extendLast (l' :: ls') e).map (List.map f)) = _
      rw [List.map_cons, ih]
      rfl

/-- When the message does not fit on the current line (so both modes take
the wrapping path), erasing the color flags from the color rendering gives
the no-color rendering: the layout — in particular every break position —
is identical, because escape bytes never enter the column counter. -/
theorem renderLines_erase (width : Nat) (hdr text : List Char)
    (kvs : List (List Char)) (hwrap : width < hdr.length + text.length)
    (color : Bool) :
    (renderLines width color hdr text kvs).map (List.map eraseItem) =
      renderLines width false hdr text kvs := by
  obtain ⟨he, hm, hc⟩ :=
    wrapF_erase width (indentLenOf hdr) color text.length text hdr.length
  have hmsg : ∀ b : Bool, msgOut width (indentLenOf hdr) b text hdr.length =
      (wrapLoopF width (indentLenOf hdr) b text.length text hdr.length, 1) := by
    intro b
    unfold msgOut
    rw [if_pos]
    simp only [Bool.or_eq_true, decide_eq_true_eq]
    exact Or.inl hwrap
  have hrl : ∀ b : Bool, renderLines width b hdr text kvs =
      extendLast ((Item.hdrI hdr ::
          (msgOut width (indentLenOf hdr) b text hdr.length).1.ext) ::
          (msgOut width (indentLenOf hdr) b text hdr.length).1.more)
        (kvLoop width (indentLenOf hdr) kvs
          (msgOut width (indentLenOf hdr) b text hdr.length).1.col
          (msgOut width (indentLenOf hdr) b text hdr.length).2).ext ++
      (kvLoop width (indentLenOf hdr) kvs
        (msgOut width (indentLenOf hdr) b text hdr.length).1.col
        (msgOut width (indentLenOf hdr) b text hdr.length).2).more :=
    fun _ => rfl
  rw [hrl color, hrl false, hmsg color, hmsg false]
  dsimp only
  rw [hc]
  obtain ⟨ke, km⟩ := kvF_erase width (indentLenOf hdr) kvs
    (wrapLoopF width (indentLenOf hdr) false text.length text hdr.length).col 1
  rw [List.map_append, extendLast_map, km, List.map_cons, List.map_cons, ke, hm, he]
  simp [eraseItem]

/-- Statement of claim C3 as written, for one record: the rendering with
color enabled, after erasing the color flags (which is what the escape
bytes amount to), coincides with the rendering with color disabled — in
particular all line-break positions agree. -/
def c3Stated (width : Nat) (msgText : List Char) (kvs : List (List Char)) : Prop :=
  (renderLines width true (hdrMatch msgText) (stripHeader msgText) kvs).map
      (List.map eraseItem) =
    renderLines width false (hdrMatch msgText) (stripHeader msgText) kvs

instance (width : Nat) (msgText : List Char) (kvs : List (List Char)) :
    Decidable (c3Stated width msgText kvs) := by
  unfold c3Stated
  infer_instance

/-- Claim C3 fails on the record `"a  b"` (two spaces) with one key/value
pair of width 6 at width 10: with color disabled the fast path echoes the
4-column text and the pair no longer fits (two lines); with color enabled
the wrap path collapses the double space to one column and the pair fits
(one line).  The break positions differ. -/
theorem c3_counterexample :
    ¬ c3Stated 10 ['a', ' ', ' ', 'b'] [['k', 'k', 'k', 'k', 'k', 'k']] := by
  decide

/-- C3 (amended): whenever the header plus the message text is wider than
the width — so that the token-level wrap path is taken in both modes —
the line-break positions of the rendered output are identical with color
enabled and disabled, and escape bytes contribute nothing to the running
column count (erasing the color flags of the color rendering yields the
no-color rendering exactly).  When the text fits on the first line, color
mode still forces token-level wrapping while no-color mode echoes the
text verbatim, which can change column accounting and move the breaks. -/
theorem c3_amended (width : Nat) (msgText : List Char) (kvs : List (List Char))
    (hwrap : width < (hdrMatch msgText).length + (stripHeader msgText).length) :
    (renderLines width true (hdrMatch msgText) (stripHeader msgText) kvs).map
        (List.map eraseItem) =
      renderLines width false (hdrMatch msgText) (stripHeader msgText) kvs :=
  renderLines_erase width (hdrMatch msgText) (stripHeader msgText) kvs hwrap true

/-- Witness for `c3_amended` on `"hello world"` at width 5. -/
theorem c3_amended_witness :
    5 < (hdrMatch ['h', 'e', 'l', 'l', 'o', ' ', 'w', 'o', 'r', 'l', 'd']).length +
        (stripHeader ['h', 'e', 'l', 'l', 'o', ' ', 'w', 'o', 'r', 'l', 'd']).length ∧
      (renderLines 5 true
          (hdrMatch ['h', 'e', 'l', 'l', 'o', ' ', 'w', 'o', 'r', 'l', 'd'])
          (stripHeader ['h', 'e', 'l', 'l', 'o', ' ', 'w', 'o', 'r', 'l', 'd']) []).map
          (List.map eraseItem) =
        renderLines 5 false
          (hdrMatch ['h', 'e', 'l', 'l', 'o', ' ', 'w', 'o', 'r', 'l', 'd'])
          (stripHeader ['h', 'e', 'l', 'l', 'o', ' ', 'w', 'o', 'r', 'l', 'd']) [] :=
  ⟨by decide,
    c3_amended 5 ['h', 'e', 'l', 'l', 'o', ' ', 'w', 'o', 'r', 'l', 'd'] []
      (by decide)⟩

/-! ### Classification of the emitted items

Every item a loop emits is a space, the continuation indent, or a
token/pair whose content comes from the input; a token's color flag is on
exactly when color is active, the token fold-matches `"error:"`, and the
token was NOT emitted by the wrapping branch (which writes the bare bytes,
kvlog.go lines 217-221, without the color test of lines 227-246). -/

theorem wrapLoopF_cons_wrap {width indentLen : Nat} {color : Bool}
    {fuel col : Nat} {a : Char} {inp' : List Char}
    (h : (nextTok (a :: inp')).bs.length + wsLenOf (nextTok (a :: inp')).ws +
        pcLenOf (nextTok (a :: inp')).pc + col > width) :
    wrapLoopF width indentLen color (fuel + 1) (a :: inp') col =
      ⟨[],
        ((Item.indentI indentLen :: Item.tok (nextTok (a :: inp')).bs
            (nextTok (a :: inp')).pc false true :: []) ++
          (wrapLoopF width indentLen color fuel (nextTok (a :: inp')).rest
            (indentLen + (nextTok (a :: inp')).bs.length +
              pcLenOf (nextTok (a :: inp')).pc)).ext) ::
          (wrapLoopF width indentLen color fuel (nextTok (a :: inp')).rest
            (indentLen + (nextTok (a :: inp')).bs.length +
              pcLenOf (nextTok (a :: inp')).pc)).more,
        (wrapLoopF width indentLen color fuel (nextTok (a :: inp')).rest
          (indentLen + (nextTok (a :: inp')).bs.length +
            pcLenOf (nextTok (a :: inp')).pc)).col⟩ := by
  simp only [wrapLoopF]
  rw [if_pos h]

theorem wrapLoopF_cons_else {width indentLen : Nat} {color : Bool}
    {fuel col : Nat} {a : Char} {inp' : List Char}
    (h : ¬ ((nextTok (a :: inp')).bs.length + wsLenOf (nextTok (a :: inp')).ws +
        pcLenOf (nextTok (a :: inp')).pc + col > width)) :
    wrapLoopF width indentLen color (fuel + 1) (a :: inp') col =
      ⟨(if (nextTok (a :: inp')).ws.isEmpty then [] else [Item.spaceI]) ++
          Item.tok (nextTok (a :: inp')).bs (nextTok (a :: inp')).pc
            (color && isErrorTok (nextTok (a :: inp')).bs) false ::
          (wrapLoopF width indentLen color fuel (nextTok (a :: inp')).rest
            (col + wsLenOf (nextTok (a :: inp')).ws +
              (nextTok (a :: inp')).bs.length +
              pcLenOf (nextTok (a :: inp')).pc)).ext,
        (wrapLoopF width indentLen color fuel (nextTok (a :: inp')).rest
          (col + wsLenOf (nextTok (a :: inp')).ws +
            (nextTok (a :: inp')).bs.length +
            pcLenOf (nextTok (a :: inp')).pc)).more,
        (wrapLoopF width indentLen color fuel (nextTok (a :: inp')).rest
          (col + wsLenOf (nextTok (a :: inp')).ws +
            (nextTok (a :: inp')).bs.length +
            pcLenOf (nextTok (a :: inp')).pc)).col⟩ := by
  simp only [wrapLoopF]
  rw [if_neg h]

theorem wrapF_item_cases (width indentLen : Nat) (color : Bool) :
    ∀ fuel inp col, ∀ it ∈ (wrapLoopF width indentLen color fuel inp col).ext ++
        (wrapLoopF width indentLen color fuel inp col).more.flatten,
      it = Item.spaceI ∨ it = Item.indentI indentLen ∨
      ∃ bs pc c wfl, it = Item.tok bs pc c wfl ∧
        c = (color && (isErrorTok bs && !wfl)) ∧
        (∀ x ∈ bs, x ∈ inp ∧ isBlack x = true) ∧
        (∀ pchar, pc = some pchar → pchar ∈ inp ∧ unicodeIsSpace pchar = false) := by
  intro fuel
  induction fuel with
  | zero =>
    intro inp col it hit
    simp [wrapLoopF] at hit
  | succ fuel ih =>
    intro inp col it hit
    cases inp with
    | nil => simp [wrapLoopF] at hit
    | cons a inp' =>
      have hbs := nextTok_bs_spec (a :: inp')
      have hpc := nextTok_pc_spec (a :: inp')
      have hrs := nextTok_rest_subset (a :: inp')
      have handleRest : ∀ col2,
          it ∈ (wrapLoopF width indentLen color fuel (nextTok (a :: inp')).rest col2).ext ++
            (wrapLoopF width indentLen color fuel (nextTok (a :: inp')).rest col2).more.flatten →
          it = Item.spaceI ∨ it = Item.indentI indentLen ∨
          ∃ bs pc c wfl, it = Item.tok bs pc c wfl ∧
            c = (color && (isErrorTok bs && !wfl)) ∧
            (∀ x ∈ bs, x ∈ a :: inp' ∧ isBlack x = true) ∧
            (∀ pchar, pc = some pchar → pchar ∈ a :: inp' ∧ unicodeIsSpace pchar = false) := by
        intro col2 hmem
        rcases ih (nextTok (a :: inp')).rest col2 it hmem with
          h | h | ⟨bs, pc, c, wfl, heq, hc, hbsm, hpcm⟩
        · exact Or.inl h
        · exact Or.inr (Or.inl h)
        · exact Or.inr (Or.inr ⟨bs, pc, c, wfl, heq, hc,
            fun x hx => ⟨hrs x (hbsm x hx).1, (hbsm x hx).2⟩,
            fun pchar hp => ⟨hrs pchar (hpcm pchar hp).1, (hpcm pchar hp).2⟩⟩)
      by_cases hcond : (nextTok (a :: inp')).bs.length + wsLenOf (nextTok (a :: inp')).ws +
          pcLenOf (nextTok (a :: inp')).pc + col > width
      · rw [wrapLoopF_cons_wrap hcond] at hit
        dsimp only at hit
        rw [List.nil_append, List.flatten_cons, List.append_assoc] at hit
        rcases List.mem_append.mp hit with h1 | h2
        · rcases List.mem_cons.mp h1 with h3 | h4
          · exact Or.inr (Or.inl h3)
          · rcases List.mem_cons.mp h4 with h5 | h6
            · exact Or.inr (Or.inr ⟨(nextTok (a :: inp')).bs, (nextTok (a :: inp')).pc,
                false, true, h5, by simp, hbs, fun pchar hp => hpc pchar hp⟩)
            · simp at h6
        · exact handleRest _ h2
      · rw [wrapLoopF_cons_else hcond] at hit
        dsimp only at hit
        rcases List.mem_append.mp hit with h1 | h2
        · rcases List.mem_append.mp h1 with h3 | h4
          · left
            cases hws : (nextTok (a :: inp')).ws.isEmpty <;> rw [hws] at h3 <;>
              simp_all
          · rcases List.mem_cons.mp h4 with h5 | h6
            · exact Or.inr (Or.inr ⟨(nextTok (a :: inp')).bs, (nextTok (a :: inp')).pc,
                color && isErrorTok (nextTok (a :: inp')).bs, false, h5, by simp,
                hbs, fun pchar hp => hpc pchar hp⟩)
            · exact handleRest _ (List.mem_append.mpr (Or.inl h6))
        · exact handleRest _ (List.mem_append.mpr (Or.inr h2))

theorem kvLoop_cons_wrap {width indentLen : Nat} {kv : List Char}
    {rest : List (List Char)} {col ns : Nat}
    (h : kv.length + ns + col > width) :
    kvLoop width indentLen (kv :: rest) col ns =
      ⟨[],
        ((Item.indentI indentLen :: Item.keyvalI kv :: []) ++
          (kvLoop width indentLen rest (indentLen + kv.length) 1).ext) ::
          (kvLoop width indentLen rest (indentLen + kv.length) 1).more,
        (kvLoop width indentLen rest (indentLen + kv.length) 1).col⟩ := by
  simp only [kvLoop]
  rw [if_pos h]

theorem kvLoop_cons_else {width indentLen : Nat} {kv : List Char}
    {rest : List (List Char)} {col ns : Nat}
    (h : ¬ (kv.length + ns + col > width)) :
    kvLoop width indentLen (kv :: rest) col ns =
      ⟨(if 0 < ns then [Item.spaceI] else []) ++
          Item.keyvalI kv ::
            (kvLoop width indentLen rest (col + ns + kv.length) 1).ext,
        (kvLoop width indentLen rest (col + ns + kv.length) 1).more,
        (kvLoop width indentLen rest (col + ns + kv.length) 1).col⟩ := by
  simp only [kvLoop]
  rw [if_neg h]

theorem kvF_item_cases (width indentLen : Nat) :
    ∀ kvs col ns, ∀ it ∈ (kvLoop width indentLen kvs col ns).ext ++
        (kvLoop width indentLen kvs col ns).more.flatten,
      it = Item.spaceI ∨ it = Item.indentI indentLen ∨
      ∃ s, it = Item.keyvalI s ∧ s ∈ kvs := by
  intro kvs
  induction kvs with
  | nil =>
    intro col ns it hit
    simp [kvLoop] at hit
  | cons kv rest ih =>
    intro col ns it hit
    have handleRest : ∀ col2,
        it ∈ (kvLoop width indentLen rest col2 1).ext ++
          (kvLoop width indentLen rest col2 1).more.flatten →
        it = Item.spaceI ∨ it = Item.indentI indentLen ∨
        ∃ s, it = Item.keyvalI s ∧ s ∈ kv :: rest := by
      intro col2 hmem
      rcases ih col2 1 it hmem with h | h | ⟨s, heq, hs⟩
      · exact Or.inl h
      · exact Or.inr (Or.inl h)
      · exact Or.inr (Or.inr ⟨s, heq, List.mem_cons_of_mem _ hs⟩)
    by_cases hcond : kv.length + ns + col > width
    · rw [kvLoop_cons_wrap hcond] at hit
      dsimp only at hit
      rw [List.nil_append, List.flatten_cons, List.append_assoc] at hit
      rcases List.mem_append.mp hit with h1 | h2
      · rcases List.mem_cons.mp h1 with h3 | h4
        · exact Or.inr (Or.inl h3)
        · rcases List.mem_cons.mp h4 with h5 | h6
          · exact Or.inr (Or.inr ⟨kv, h5, List.mem_cons_self _ _⟩)
          · simp at h6
      · exact handleRest _ h2
    · rw [kvLoop_cons_else hcond] at hit
      dsimp only at hit
      rcases List.mem_append.mp hit with h1 | h2
      · rcases List.mem_append.mp h1 with h3 | h4
        · left
          rcases hns : decide (0 < ns) with _ | _ <;> simp_all
        · rcases List.mem_cons.mp h4 with h5 | h6
          · exact Or.inr (Or.inr ⟨kv, h5, List.mem_cons_self _ _⟩)
          · exact handleRest _ (List.mem_append.mpr (Or.inl h6))
      · exact handleRest _ (List.mem_append.mpr (Or.inr h2))

theorem msgOut_item_cases (width indentLen : Nat) (color : Bool)
    (text : List Char) (col0 : Nat) :
    ∀ it ∈ (msgOut width indentLen color text col0).1.ext ++
        (msgOut width indentLen color text col0).1.more.flatten,
      it = Item.spaceI ∨ it = Item.indentI indentLen ∨ it = Item.textI text ∨
      ∃ bs pc c wfl, it = Item.tok bs pc c wfl ∧
        c = (color && (isErrorTok bs && !wfl)) ∧
        (∀ x ∈ bs, x ∈ text ∧ isBlack x = true) ∧
        (∀ pchar, pc = some pchar → pchar ∈ text ∧ unicodeIsSpace pchar = false) := by
  intro it hit
  unfold msgOut at hit
  split at hit
  · rcases wrapF_item_cases width indentLen color text.length text col0 it hit with
      h | h | ⟨bs, pc, c, wfl, heq, hc, hbsm, hpcm⟩
    · exact Or.inl h
    · exact Or.inr (Or.inl h)
    · exact Or.inr (Or.inr (Or.inr ⟨bs, pc, c, wfl, heq, hc, hbsm, hpcm⟩))
  · split at hit
    · dsimp only at hit
      rcases List.mem_append.mp hit with h1 | h2
      · rcases List.mem_cons.mp h1 with h3 | h4
        · exact Or.inr (Or.inr (Or.inl h3))
        · simp at h4
      · simp at h2
    · dsimp only at hit
      simp at hit

/-- Decomposition of the items of the assembled buffer. -/
theorem renderLines_item_cases (width : Nat) (color : Bool)
    (hdr text : List Char) (kvs : List (List Char)) :
    ∀ it ∈ (renderLines width color hdr text kvs).flatten,
      it = Item.hdrI hdr ∨ it = Item.spaceI ∨
      it = Item.indentI (indentLenOf hdr) ∨ it = Item.textI text ∨
      (∃ s, it = Item.keyvalI s ∧ s ∈ kvs) ∨
      ∃ bs pc c wfl, it = Item.tok bs pc c wfl ∧
        c = (color && (isErrorTok bs && !wfl)) ∧
        (∀ x ∈ bs, x ∈ text ∧ isBlack x = true) ∧
        (∀ pchar, pc = some pchar → pchar ∈ text ∧ unicodeIsSpace pchar = false) := by
  intro it hit
  have hrl : renderLines width color hdr text kvs =
      extendLast ((Item.hdrI hdr ::
          (msgOut width (indentLenOf hdr) color text hdr.length).1.ext) ::
          (msgOut width (indentLenOf hdr) color text hdr.length).1.more)
        (kvLoop width (indentLenOf hdr) kvs
          (msgOut width (indentLenOf hdr) color text hdr.length).1.col
          (msgOut width (indentLenOf hdr) color text hdr.length).2).ext ++
      (kvLoop width (indentLenOf hdr) kvs
        (msgOut width (indentLenOf hdr) color text hdr.length).1.col
        (msgOut width (indentLenOf hdr) color text hdr.length).2).more := rfl
  rw [hrl, List.flatten_append, extendLast_flatten, List.flatten_cons] at hit
  rcases List.mem_append.mp hit with h1 | h2
  · rcases List.mem_append.mp h1 with h3 | h4
    · rcases List.mem_append.mp h3 with h5 | h6
      · rcases List.mem_cons.mp h5 with h7 | h8
        · exact Or.inl h7
        · rcases msgOut_item_cases width (indentLenOf hdr) color text hdr.length it
            (List.mem_append.mpr (Or.inl h8)) with h | h | h | h
          · exact Or.inr (Or.inl h)
          · exact Or.inr (Or.inr (Or.inl h))
          · exact Or.inr (Or.inr (Or.inr (Or.inl h)))
          · exact Or.inr (Or.inr (Or.inr (Or.inr (Or.inr h))))
      · rcases msgOut_item_cases width (indentLenOf hdr) color text hdr.length it
          (List.mem_append.mpr (Or.inr h6)) with h | h | h | h
        · exact Or.inr (Or.inl h)
        · exact Or.inr (Or.inr (Or.inl h))
        · exact Or.inr (Or.inr (Or.inr (Or.inl h)))
        · exact Or.inr (Or.inr (Or.inr (Or.inr (Or.inr h))))
    · rcases kvF_item_cases width (indentLenOf hdr) kvs
          (msgOut width (indentLenOf hdr) color text hdr.length).1.col
          (msgOut width (indentLenOf hdr) color text hdr.length).2 it
          (List.mem_append.mpr (Or.inl h4)) with h | h | h
      · exact Or.inr (Or.inl h)
      · exact Or.inr (Or.inr (Or.inl h))
      · exact Or.inr (Or.inr (Or.inr (Or.inr (Or.inl h))))
  · rcases kvF_item_cases width (indentLenOf hdr) kvs
        (msgOut width (indentLenOf hdr) color text hdr.length).1.col
        (msgOut width (indentLenOf hdr) color text hdr.length).2 it
        (List.mem_append.mpr (Or.inr h2)) with h | h | h
    · exact Or.inr (Or.inl h)
    · exact Or.inr (Or.inr (Or.inl h))
    · exact Or.inr (Or.inr (Or.inr (Or.inr (Or.inl h))))

/-! ### Claim C2 -/

/-- Test for one item of the stated C2 property: a token starting with the
severity marker carries the color escapes. -/
def tokColoredOk : Item → Bool
  | Item.tok bs _ c _ => !(isErrorTok bs) || c
  | _ => true

/-- Statement of claim C2 as written, for one record with color enabled:
every emitted word token that fold-matches `"error:"` is emitted inside
the escape pair. -/
def c2Stated (width : Nat) (msgText : List Char) (kvs : List (List Char)) : Prop :=
  ∀ it ∈ (renderLines width true (hdrMatch msgText) (stripHeader msgText) kvs).flatten,
    tokColoredOk it = true

instance (width : Nat) (msgText : List Char) (kvs : List (List Char)) :
    Decidable (c2Stated width msgText kvs) := by
  unfold c2Stated
  infer_instance

/-- Claim C2 fails on the record `"error: x"` at width 5 with color
enabled: the token `"error:"` does not fit and is emitted by the wrapping
branch at the start of a continuation line, which writes the bare bytes
without the color test. -/
theorem c2_counterexample :
    ¬ c2Stated 5 ['e', 'r', 'r', 'o', 'r', ':', ' ', 'x'] [] := by
  decide

/-- C2 (amended): with color enabled, an emitted word token carries the
`\x1b[0;31m`/`\x1b[0m` escape pair exactly when it starts,
case-insensitively, with `"error:"` AND it is placed on the current line;
a token emitted by the wrapping branch — at the start of a wrapped
continuation line — is always written bare, even when it starts with the
severity marker. -/
theorem c2_amended (width : Nat) (msgText : List Char) (kvs : List (List Char)) :
    ∀ it ∈ (renderLines width true (hdrMatch msgText) (stripHeader msgText) kvs).flatten,
      ∀ bs pc c wfl, it = Item.tok bs pc c wfl → c = (isErrorTok bs && !wfl) := by
  intro it hit bs pc c wfl heq
  rcases renderLines_item_cases width true (hdrMatch msgText) (stripHeader msgText)
      kvs it hit with h | h | h | h | ⟨s, h, _⟩ |
    ⟨bs', pc', c', wfl', heq', hc', _, _⟩
  · rw [heq] at h
    cases h
  · rw [heq] at h
    cases h
  · rw [heq] at h
    cases h
  · rw [heq] at h
    cases h
  · rw [heq] at h
    cases h
  · rw [heq] at heq'
    injection heq' with h1 h2 h3 h4
    subst h1
    subst h3
    subst h4
    rw [hc']
    simp

/-- Witness for `c2_amended`: in the rendering of `"error: x"` at width 5
with color on, the wrapped severity token is present and uncolored. -/
theorem c2_amended_witness :
    Item.tok ['e', 'r', 'r', 'o', 'r', ':'] none false true ∈
        (renderLines 5 true
          (hdrMatch ['e', 'r', 'r', 'o', 'r', ':', ' ', 'x'])
          (stripHeader ['e', 'r', 'r', 'o', 'r', ':', ' ', 'x']) []).flatten ∧
      false = (isErrorTok ['e', 'r', 'r', 'o', 'r', ':'] && !true) :=
  ⟨by decide,
    c2_amended 5 ['e', 'r', 'r', 'o', 'r', ':', ' ', 'x'] []
      (Item.tok ['e', 'r', 'r', 'o', 'r', ':'] none false true) (by decide)
      ['e', 'r', 'r', 'o', 'r', ':'] none false true rfl⟩

/-! ### Claim C7: whitespace collapsing

The wrap path never emits two adjacent `\s` characters within a line
body (the part after the line's header/indent margin): token bytes hold
no `\s` character at all, and each input whitespace run contributes at
most one separating space.  The fast path, by contrast, echoes the text
verbatim. -/

theorem flatLine_nil : flatLine [] = [] := rfl

theorem flatLine_cons (it : Item) (L : List Item) :
    flatLine (it :: L) = flatItem it ++ flatLine L := by
  unfold flatLine
  simp

theorem flatLine_append (L M : List Item) :
    flatLine (L ++ M) = flatLine L ++ flatLine M := by
  unfold flatLine
  simp

/-- Test that a byte string holds no `\s` character at all. -/
def noWS (s : List Char) : Bool :=
  s.all (fun c => !isWS c)

/-- Test that a byte string starts with a non-`\s` character (or is empty). -/
def headNonWS : List Char → Bool
  | [] => true
  | c :: _ => !isWS c

theorem noDW_cons {a : Char} {l : List Char} (ha : isWS a = false)
    (hl : noDoubleWS l = true) : noDoubleWS (a :: l) = true := by
  cases l with
  | nil => rfl
  | cons b r =>
    show (!(isWS a && isWS b) && noDoubleWS (b :: r)) = true
    rw [ha, hl]
    simp

theorem noDW_of_noWS : ∀ {s : List Char}, noWS s = true → noDoubleWS s = true := by
  intro s
  induction s with
  | nil => intro _; rfl
  | cons a l ih =>
    intro h
    rw [noWS, List.all_cons, Bool.and_eq_true] at h
    exact noDW_cons (by simpa using h.1) (ih h.2)

theorem noDW_append_left : ∀ {x y : List Char}, noWS x = true →
    noDoubleWS y = true → noDoubleWS (x ++ y) = true := by
  intro x
  induction x with
  | nil =>
    intro y _ hy
    simpa using hy
  | cons a l ih =>
    intro y hx hy
    rw [noWS, List.all_cons, Bool.and_eq_true] at hx
    exact noDW_cons (by simpa using hx.1) (ih hx.2 hy)

theorem noDW_cons_space {l : List Char} (hl : noDoubleWS l = true)
    (hh : headNonWS l = true) : noDoubleWS (' ' :: l) = true := by
  cases l with
  | nil => rfl
  | cons b r =>
    show (!(isWS ' ' && isWS b) && noDoubleWS (b :: r)) = true
    have hb : isWS b = false := by
      rw [headNonWS] at hh
      simpa using hh
    rw [hb, hl]
    simp

theorem headNonWS_append {x y : List Char} (hx : headNonWS x = true)
    (hnil : x = [] → headNonWS y = true) : headNonWS (x ++ y) = true := by
  cases x with
  | nil => simpa using hnil rfl
  | cons a l => simpa using hx

theorem noWS_redSeq : noWS redSeq = true := by decide

theorem noWS_resetSeq : noWS resetSeq = true := by decide

theorem tokFlat_noWS {bs : List Char} {pc : Option Char} {c wfl : Bool}
    (hbs : ∀ x ∈ bs, isBlack x = true)
    (hpc : ∀ p, pc = some p → unicodeIsSpace p = false) :
    noWS (flatItem (Item.tok bs pc c wfl)) = true := by
  have hbs' : noWS bs = true := by
    rw [noWS, List.all_eq_true]
    intro x hx
    have := hbs x hx
    rw [isBlack, Bool.and_eq_true] at this
    simpa using this.1
  have hpcWS : ∀ p, pc = some p → isWS p = false := by
    intro p hp
    have h1 := hpc p hp
    cases hw : isWS p
    · rfl
    · rw [isWS_imp_unicode hw] at h1
      cases h1
  have hpc' : noWS (pcBytes pc) = true := by
    cases pc with
    | none => rfl
    | some p => simp [pcBytes, noWS, hpcWS p rfl]
  unfold flatItem
  rw [noWS, List.all_append, Bool.and_eq_true]
  constructor
  · cases c with
    | false => simpa [noWS] using hbs'
    | true =>
      simp only [if_true]
      rw [List.all_append, List.all_append, Bool.and_eq_true, Bool.and_eq_true]
      exact ⟨⟨by simpa [noWS] using noWS_redSeq, by simpa [noWS] using hbs'⟩,
        by simpa [noWS] using noWS_resetSeq⟩
  · simpa [noWS] using hpc'

theorem tokFlat_headNonWS {bs : List Char} {pc : Option Char} {c wfl : Bool}
    (hbs : ∀ x ∈ bs, isBlack x = true)
    (hpc : ∀ p, pc = some p → unicodeIsSpace p = false) :
    headNonWS (flatItem (Item.tok bs pc c wfl)) = true := by
  have h := @tokFlat_noWS bs pc c wfl hbs hpc
  cases hf : flatItem (Item.tok bs pc c wfl) with
  | nil => rfl
  | cons a l =>
    rw [hf, noWS, List.all_cons, Bool.and_eq_true] at h
    show (!isWS a) = true
    exact h.1

theorem tokFlat_nil {bs : List Char} {pc : Option Char} {c wfl : Bool}
    (h : flatItem (Item.tok bs pc c wfl) = []) : bs = [] ∧ pc = none := by
  unfold flatItem at h
  rw [List.append_eq_nil] at h
  obtain ⟨h1, h2⟩ := h
  constructor
  · cases c with
    | false => simpa using h1
    | true => simp [redSeq] at h1
  · cases pc with
    | none => rfl
    | some p => simp [pcBytes] at h2

theorem wrapLoopF_nil_inp (width indentLen : Nat) (color : Bool) :
    ∀ fuel col, wrapLoopF width indentLen color fuel [] col = ⟨[], [], col⟩ := by
  intro fuel col
  cases fuel <;> rfl

theorem wrapF_noDW (width indentLen : Nat) (color : Bool) :
    ∀ fuel inp col,
      noDoubleWS (flatLine (wrapLoopF width indentLen color fuel inp col).ext) = true ∧
      ∀ L ∈ (wrapLoopF width indentLen color fuel inp col).more,
        noDoubleWS (flatLine (stripLead L)) = true := by
  intro fuel
  induction fuel with
  | zero =>
    intro inp col
    exact ⟨rfl, by simp [wrapLoopF]⟩
  | succ fuel ih =>
    intro inp col
    cases inp with
    | nil => exact ⟨rfl, by simp [wrapLoopF]⟩
    | cons a inp' =>
      have hbs := fun x hx => (nextTok_bs_spec (a :: inp') x hx).2
      have hpcf := fun p hp => (nextTok_pc_spec (a :: inp') p hp).2
      have htokNoWS := @tokFlat_noWS (nextTok (a :: inp')).bs (nextTok (a :: inp')).pc
        (color && isErrorTok (nextTok (a :: inp')).bs) false hbs hpcf
      have htokHead := @tokFlat_headNonWS (nextTok (a :: inp')).bs (nextTok (a :: inp')).pc
        (color && isErrorTok (nextTok (a :: inp')).bs) false hbs hpcf
      by_cases hcond : (nextTok (a :: inp')).bs.length + wsLenOf (nextTok (a :: inp')).ws +
          pcLenOf (nextTok (a :: inp')).pc + col > width
      · rw [wrapLoopF_cons_wrap hcond]
        dsimp only
        obtain ⟨ihe, ihm⟩ := ih (nextTok (a :: inp')).rest
          (indentLen + (nextTok (a :: inp')).bs.length + pcLenOf (nextTok (a :: inp')).pc)
        refine ⟨rfl, ?_⟩
        intro L hL
        rcases List.mem_cons.mp hL with hL0 | hLm
        · rw [hL0]
          have hstrip : stripLead ((Item.indentI indentLen ::
              Item.tok (nextTok (a :: inp')).bs (nextTok (a :: inp')).pc false true :: []) ++
              (wrapLoopF width indentLen color fuel (nextTok (a :: inp')).rest
                (indentLen + (nextTok (a :: inp')).bs.length +
                  pcLenOf (nextTok (a :: inp')).pc)).ext) =
              Item.tok (nextTok (a :: inp')).bs (nextTok (a :: inp')).pc false true ::
              (wrapLoopF width indentLen color fuel (nextTok (a :: inp')).rest
                (indentLen + (nextTok (a :: inp')).bs.length +
                  pcLenOf (nextTok (a :: inp')).pc)).ext := by
            simp [stripLead, List.dropWhile, isLead]
          rw [hstrip, flatLine_cons]
          exact noDW_append_left
            (@tokFlat_noWS (nextTok (a :: inp')).bs (nextTok (a :: inp')).pc
              false true hbs hpcf) ihe
        · exact ihm L hLm
      · rw [wrapLoopF_cons_else hcond]
        dsimp only
        obtain ⟨ihe, ihm⟩ := ih (nextTok (a :: inp')).rest
          (col + wsLenOf (nextTok (a :: inp')).ws + (nextTok (a :: inp')).bs.length +
            pcLenOf (nextTok (a :: inp')).pc)
        refine ⟨?_, ihm⟩
        have hz : noDoubleWS (flatItem (Item.tok (nextTok (a :: inp')).bs
            (nextTok (a :: inp')).pc (color && isErrorTok (nextTok (a :: inp')).bs) false) ++
            flatLine (wrapLoopF width indentLen color fuel (nextTok (a :: inp')).rest
              (col + wsLenOf (nextTok (a :: inp')).ws + (nextTok (a :: inp')).bs.length +
                pcLenOf (nextTok (a :: inp')).pc)).ext) = true :=
          noDW_append_left htokNoWS ihe
        have hzh : headNonWS (flatItem (Item.tok (nextTok (a :: inp')).bs
            (nextTok (a :: inp')).pc (color && isErrorTok (nextTok (a :: inp')).bs) false) ++
            flatLine (wrapLoopF width indentLen color fuel (nextTok (a :: inp')).rest
              (col + wsLenOf (nextTok (a :: inp')).ws + (nextTok (a :: inp')).bs.length +
                pcLenOf (nextTok (a :: inp')).pc)).ext) = true := by
          refine headNonWS_append htokHead ?_
          intro hnil
          obtain ⟨hbsnil, hpcnil⟩ := tokFlat_nil hnil
          have hrest : (nextTok (a :: inp')).rest = [] := nextTok_empty_rest hbsnil hpcnil
          rw [hrest, wrapLoopF_nil_inp]
          rfl
        cases hws : (nextTok (a :: inp')).ws.isEmpty with
        | true =>
          rw [if_pos rfl]
          rw [List.nil_append, flatLine_cons]
          exact hz
        | false =>
          rw [if_neg (by simp)]
          have : flatLine ([Item.spaceI] ++
              Item.tok (nextTok (a :: inp')).bs (nextTok (a :: inp')).pc
                (color && isErrorTok (nextTok (a :: inp')).bs) false ::
              (wrapLoopF width indentLen color fuel (nextTok (a :: inp')).rest
                (col + wsLenOf (nextTok (a :: inp')).ws + (nextTok (a :: inp')).bs.length +
                  pcLenOf (nextTok (a :: inp')).pc)).ext) =
              ' ' :: (flatItem (Item.tok (nextTok (a :: inp')).bs (nextTok (a :: inp')).pc
                (color && isErrorTok (nextTok (a :: inp')).bs) false) ++
              flatLine (wrapLoopF width indentLen color fuel (nextTok (a :: inp')).rest
                (col + wsLenOf (nextTok (a :: inp')).ws + (nextTok (a :: inp')).bs.length +
                  pcLenOf (nextTok (a :: inp')).pc)).ext) := by
            rw [List.cons_append, List.nil_append, flatLine_cons, flatLine_cons]
            rfl
          rw [this]
          exact noDW_cons_space hz hzh

/-- Heads of the wrapper's current-line extension are never margin items,
so `stripLead` leaves the extension intact. -/
theorem wrapF_stripLead_ext (width indentLen : Nat) (color : Bool)
    (fuel : Nat) (inp : List Char) (col : Nat) :
    stripLead (wrapLoopF width indentLen color fuel inp col).ext =
      (wrapLoopF width indentLen color fuel inp col).ext := by
  cases fuel with
  | zero => rfl
  | succ fuel =>
    cases inp with
    | nil => rfl
    | cons a inp' =>
      by_cases hcond : (nextTok (a :: inp')).bs.length + wsLenOf (nextTok (a :: inp')).ws +
          pcLenOf (nextTok (a :: inp')).pc + col > width
      · rw [wrapLoopF_cons_wrap hcond]
        rfl
      · rw [wrapLoopF_cons_else hcond]
        dsimp only
        cases hws : (nextTok (a :: inp')).ws.isEmpty with
        | true =>
          rw [if_pos rfl]
          simp [stripLead, List.dropWhile, isLead]
        | false =>
          rw [if_neg (by simp)]
          simp [stripLead, List.dropWhile, isLead]

/-- On the wrap path, the body of every message line — the bytes after
the line's header or indent margin — holds no two adjacent `\s`
characters: each input whitespace run is rendered as at most one space. -/
theorem msgLines_noDW (width : Nat) (color : Bool) (hdr text : List Char)
    (hpath : width < hdr.length + text.length ∨ color = true) :
    ∀ L ∈ msgLines width color hdr text,
      noDoubleWS (flatLine (stripLead L)) = true := by
  intro L hL
  have hmsg : msgOut width (indentLenOf hdr) color text hdr.length =
      (wrapLoopF width (indentLenOf hdr) color text.length text hdr.length, 1) := by
    unfold msgOut
    rw [if_pos]
    simp only [Bool.or_eq_true, decide_eq_true_eq]
    rcases hpath with h | h
    · exact Or.inl h
    · exact Or.inr h
  unfold msgLines at hL
  rw [hmsg] at hL
  dsimp only at hL
  obtain ⟨he, hm⟩ := wrapF_noDW width (indentLenOf hdr) color text.length text hdr.length
  rcases List.mem_cons.mp hL with h1 | h2
  · rw [h1]
    have : stripLead (Item.hdrI hdr ::
        (wrapLoopF width (indentLenOf hdr) color text.length text hdr.length).ext) =
        stripLead (wrapLoopF width (indentLenOf hdr) color text.length text hdr.length).ext := by
      simp [stripLead, List.dropWhile, isLead]
    rw [this, wrapF_stripLead_ext]
    exact he
  · exact hm L h2

/-- Statement of claim C7 as written, for one record: in every line of
the rendered message part, the body after the left margin holds no two
adjacent whitespace characters (whitespace runs of the input never reach
the output). -/
def c7Stated (width : Nat) (color : Bool) (msgText : List Char) : Prop :=
  ∀ L ∈ msgLines width color (hdrMatch msgText) (stripHeader msgText),
    noDoubleWS (flatLine (stripLead L)) = true

instance (width : Nat) (color : Bool) (msgText : List Char) :
    Decidable (c7Stated width color msgText) := by
  unfold c7Stated
  infer_instance

/-- Claim C7 fails on the record `"a  b"` at width 170 without color: the
message fits, the fast path echoes the text verbatim, and the double
space appears in the emitted bytes unchanged. -/
theorem c7_counterexample : ¬ c7Stated 170 false ['a', ' ', ' ', 'b'] := by
  decide

/-- C7 (amended): whenever the token-level wrap path is taken — the
message does not fit on the current line, or color output is active —
every run of whitespace characters in the message text is rendered as at
most a single space: no line body of the message part holds two adjacent
whitespace characters.  On the fast path (color off and the text fits),
the text is echoed verbatim and input whitespace runs are preserved. -/
theorem c7_amended (width : Nat) (color : Bool) (msgText : List Char)
    (hpath : width < (hdrMatch msgText).length + (stripHeader msgText).length ∨
      color = true) :
    ∀ L ∈ msgLines width color (hdrMatch msgText) (stripHeader msgText),
      noDoubleWS (flatLine (stripLead L)) = true :=
  msgLines_noDW width color (hdrMatch msgText) (stripHeader msgText) hpath

/-- Witness for `c7_amended` on `"a  b"` at width 3. -/
theorem c7_amended_witness :
    (3 < (hdrMatch ['a', ' ', ' ', 'b']).length +
        (stripHeader ['a', ' ', ' ', 'b']).length ∨ false = true) ∧
      ∀ L ∈ msgLines 3 false (hdrMatch ['a', ' ', ' ', 'b'])
          (stripHeader ['a', ' ', ' ', 'b']),
        noDoubleWS (flatLine (stripLead L)) = true :=
  ⟨Or.inl (by decide),
    c7_amended 3 false ['a', ' ', ' ', 'b'] (Or.inl (by decide))⟩

/-! ### Claim C6: order preservation of key/value pairs -/

theorem kvF_texts (width indentLen : Nat) :
    ∀ kvs col ns,
      ((kvLoop width indentLen kvs col ns).ext ++
          (kvLoop width indentLen kvs col ns).more.flatten).filterMap
        (fun it => match it with | Item.keyvalI s => some s | _ => none) = kvs := by
  intro kvs
  induction kvs with
  | nil =>
    intro col ns
    simp [kvLoop]
  | cons kv rest ih =>
    intro col ns
    by_cases hcond : kv.length + ns + col > width
    · rw [kvLoop_cons_wrap hcond]
      dsimp only
      rw [List.nil_append, List.flatten_cons, List.append_assoc]
      simp only [List.cons_append, List.nil_append, List.filterMap_cons]
      exact congrArg (kv :: ·) (ih _ 1)
    · rw [kvLoop_cons_else hcond]
      dsimp only
      by_cases hp : 0 < ns
      · rw [if_pos hp]
        simp only [List.cons_append, List.nil_append, List.append_assoc,
          List.filterMap_cons]
        exact congrArg (kv :: ·) (ih _ 1)
      · rw [if_neg hp]
        simp only [List.cons_append, List.nil_append, List.append_assoc,
          List.filterMap_cons]
        exact congrArg (kv :: ·) (ih _ 1)

theorem msgOut_no_keyval (width indentLen : Nat) (color : Bool)
    (text : List Char) (col0 : Nat) :
    ((msgOut width indentLen color text col0).1.ext ++
        (msgOut width indentLen color text col0).1.more.flatten).filterMap
      (fun it => match it with | Item.keyvalI s => some s | _ => none) = [] := by
  rw [List.filterMap_eq_nil_iff]
  intro it hit
  rcases msgOut_item_cases width indentLen color text col0 it hit with
    h | h | h | ⟨bs, pc, c, wfl, heq, _, _, _⟩ <;> subst_vars <;> rfl

/-- C6: for every record (with a well-formed pair list rendered to the
texts `kvs`), the key/value texts appear in the assembled buffer exactly
in the order supplied, regardless of where line breaks fall. -/
theorem c6_order (width : Nat) (color : Bool) (msgText : List Char)
    (kvP : List Char → KVal → List Char) (list : List KVal)
    (kvs : List (List Char)) (_hx : extractPairs kvP list = some kvs) :
    kvTexts (renderLines width color (hdrMatch msgText) (stripHeader msgText) kvs) =
      kvs := by
  unfold kvTexts
  set s := msgOut width (indentLenOf (hdrMatch msgText)) color
    (stripHeader msgText) (hdrMatch msgText).length with hs
  set k := kvLoop width (indentLenOf (hdrMatch msgText)) kvs s.1.col s.2 with hk
  have hrl : renderLines width color (hdrMatch msgText) (stripHeader msgText) kvs =
      extendLast ((Item.hdrI (hdrMatch msgText) :: s.1.ext) :: s.1.more) k.ext ++
        k.more := rfl
  rw [hrl, List.flatten_append, extendLast_flatten, List.flatten_cons]
  have hmsg := msgOut_no_keyval width (indentLenOf (hdrMatch msgText)) color
    (stripHeader msgText) (hdrMatch msgText).length
  rw [← hs, List.filterMap_append] at hmsg
  obtain ⟨hm1, hm2⟩ := List.append_eq_nil.mp hmsg
  have hkv := kvF_texts width (indentLenOf (hdrMatch msgText)) kvs s.1.col s.2
  rw [← hk, List.filterMap_append] at hkv
  simp only [List.filterMap_append, List.filterMap_cons]
  rw [hm1, hm2]
  simp only [List.nil_append, List.append_nil]
  rw [← hkv]

/-! ### The `Write`-level equations -/

theorem write_suppressed {E : Type} (w : Writer)
    (kvP : List Char → KVal → List Char) (msg : Msg)
    (sink : List Char → Nat × Option E)
    (h : suppressed w.verbose (stripHeader msg.text) = true) :
    write w kvP msg sink = some ((0, none), []) := by
  unfold write
  rw [if_pos (show suppressed w.verbose
    (msg.text.drop (hdrMatch msg.text).length) = true from h)]

theorem write_normal {E : Type} (w : Writer)
    (kvP : List Char → KVal → List Char) (msg : Msg)
    (sink : List Char → Nat × Option E) (kvs : List (List Char))
    (hsup : suppressed w.verbose (stripHeader msg.text) = false)
    (hx : extractPairs kvP msg.list = some kvs) :
    write w kvP msg sink =
      some (sink (outBytes (renderLines w.width w.colorOutput (hdrMatch msg.text)
          (stripHeader msg.text) kvs)),
        [outBytes (renderLines w.width w.colorOutput (hdrMatch msg.text)
          (stripHeader msg.text) kvs)]) := by
  simp only [write]
  rw [show suppressed w.verbose
    (msg.text.drop (hdrMatch msg.text).length) = false from hsup]
  simp only [Bool.false_eq_true, if_false]
  rw [hx]
  rfl

theorem write_panic {E : Type} (w : Writer)
    (kvP : List Char → KVal → List Char) (msg : Msg)
    (sink : List Char → Nat × Option E)
    (hsup : suppressed w.verbose (stripHeader msg.text) = false)
    (hx : extractPairs kvP msg.list = none) :
    write w kvP msg sink = none := by
  simp only [write]
  rw [show suppressed w.verbose
    (msg.text.drop (hdrMatch msg.text).length) = false from hsup]
  simp only [Bool.false_eq_true, if_false]
  rw [hx]

/-! ### Characters of the emitted bytes (claim C10) -/

theorem outBytes_mem {c : Char} {lines : List (List Item)}
    (h : c ∈ outBytes lines) :
    c = '\n' ∨ ∃ it ∈ lines.flatten, c ∈ flatItem it := by
  unfold outBytes at h
  rw [List.mem_flatten] at h
  obtain ⟨l, hl, hcl⟩ := h
  rw [List.mem_map] at hl
  obtain ⟨L, hL, rfl⟩ := hl
  rcases List.mem_append.mp hcl with h1 | h2
  · right
    unfold flatLine at h1
    rw [List.mem_flatten] at h1
    obtain ⟨x, hx, hcx⟩ := h1
    rw [List.mem_map] at hx
    obtain ⟨it, hit, rfl⟩ := hx
    exact ⟨it, List.mem_flatten.mpr ⟨L, hL, hit⟩, hcx⟩
  · left
    simpa using h2

theorem matchDate_eq {s d r : List Char} (h : matchDate s = some (d, r)) :
    d = s.take 11 ∧ r = s.drop 11 := by
  unfold matchDate at h
  split at h
  · cases h
    exact ⟨rfl, rfl⟩
  · cases h

theorem matchTime_mem {s t r4 : List Char} (h : matchTime s = some (t, r4)) :
    ∀ c ∈ t, c ∈ s ∨ c = '.' ∨ c = ' ' := by
  intro c hc
  unfold matchTime at h
  split at h
  · rcases hd8 : s.drop 8 with _ | ⟨d, r2⟩
    · rw [hd8] at h
      exact absurd h (by simp)
    · rw [hd8] at h
      by_cases hdot : d = '.'
      · subst hdot
        simp only at h
        by_cases hlen : (r2.takeWhile Char.isDigit).length ≤ 6
        · rw [if_pos hlen] at h
          rcases hdw : r2.dropWhile Char.isDigit with _ | ⟨e, r5⟩
          · rw [hdw] at h
            exact absurd h (by simp)
          · rw [hdw] at h
            by_cases hsp : e = ' '
            · subst hsp
              simp only [Option.some.injEq, Prod.mk.injEq] at h
              obtain ⟨ht, _⟩ := h
              subst ht
              rcases List.mem_append.mp hc with h1 | h2
              · rcases List.mem_append.mp h1 with h3 | h4
                · exact Or.inl ((List.take_sublist _ _).mem h3)
                · rcases List.mem_cons.mp h4 with h5 | h6
                  · exact Or.inr (Or.inl h5)
                  · left
                    have hin : c ∈ r2 := (List.takeWhile_sublist _).mem h6
                    have : c ∈ s.drop 8 := by
                      rw [hd8]
                      exact List.mem_cons_of_mem _ hin
                    exact (List.drop_sublist _ _).mem this
              · exact Or.inr (Or.inr (by simpa using h2))
            · rw [show (match e :: r5 with
                  | ' ' :: r4 => some (s.take 8 ++ '.' :: r2.takeWhile Char.isDigit ++ [' '], r4)
                  | _ => (none : Option (List Char × List Char))) = none from by
                    cases e
                    simp_all [Char.ext_iff]] at h
              exact absurd h (by simp)
        · rw [if_neg hlen] at h
          exact absurd h (by simp)
      · by_cases hsp2 : d = ' '
        · subst hsp2
          simp only [Option.some.injEq, Prod.mk.injEq] at h
          obtain ⟨ht, _⟩ := h
          subst ht
          rcases List.mem_append.mp hc with h1 | h2
          · exact Or.inl ((List.take_sublist _ _).mem h1)
          · exact Or.inr (Or.inr (by simpa using h2))
        · rw [show (match d :: r2 with
              | '.' :: r2 =>
                let ds := r2.takeWhile Char.isDigit
                if ds.length ≤ 6 then
                  match r2.dropWhile Char.isDigit with
                  | ' ' :: r4 => some (s.take 8 ++ '.' :: ds ++ [' '], r4)
                  | _ => none
                else none
              | ' ' :: r4 => some (s.take 8 ++ [' '], r4)
              | _ => (none : Option (List Char × List Char))) = none from by
                cases d
                simp_all [Char.ext_iff]] at h
          exact absurd h (by simp)
  · exact absurd h (by simp)

theorem hdrMatch_mem (s : List Char) :
    ∀ c ∈ hdrMatch s, c ∈ s ∨ c = '.' ∨ c = ' ' := by
  intro c hc
  unfold hdrMatch at hc
  rcases hmd : matchDate s with _ | ⟨d, r⟩
  · rw [hmd] at hc
    rcases hmt : matchTime s with _ | ⟨t, r4⟩
    · rw [hmt] at hc
      simp at hc
    · rw [hmt] at hc
      exact matchTime_mem hmt c hc
  · rw [hmd] at hc
    obtain ⟨hd, hr⟩ := matchDate_eq hmd
    rcases List.mem_append.mp hc with h1 | h2
    · rw [hd] at h1
      exact Or.inl ((List.take_sublist _ _).mem h1)
    · rcases hmt : matchTime r with _ | ⟨t, r4⟩
      · rw [hmt] at h2
        simp at h2
      · rw [hmt] at h2
        rcases matchTime_mem hmt c h2 with h3 | h4
        · left
          rw [hr] at h3
          exact (List.drop_sublist _ _).mem h3
        · exact Or.inr h4

theorem stripHeader_subset (s : List Char) : ∀ c ∈ stripHeader s, c ∈ s := by
  intro c hc
  exact (List.drop_sublist _ _).mem hc

theorem extractPairs_mem (kvP : List Char → KVal → List Char) :
    ∀ (l : List KVal) (kvs : List (List Char)),
      extractPairs kvP l = some kvs → ∀ s ∈ kvs, ∃ k v, s = kvP k v
  | [], kvs => by
    intro h s hs
    simp only [extractPairs, Option.some.injEq] at h
    subst h
    simp at hs
  | [_], kvs => by
    intro h
    simp [extractPairs] at h
  | KVal.str k :: v :: rest, kvs => by
    intro h s hs
    simp only [extractPairs, Option.map_eq_some'] at h
    obtain ⟨a, ha, rfl⟩ := h
    rcases List.mem_cons.mp hs with h1 | h2
    · exact ⟨k, v, h1⟩
    · exact extractPairs_mem kvP rest a ha s h2
  | KVal.other :: _ :: _, kvs => by
    intro h
    simp [extractPairs] at h

/-- C10: whenever color output is disabled on the writer — in particular
after `NoColor` — and neither the message text nor any rendered key/value
text contains the escape byte `\x1b`, no buffer `Write` hands to the
underlying stream contains it either: the renderer adds escape bytes only
when `colorOutput` is set. -/
theorem c10_no_escape {E : Type} (w : Writer) (hc : w.colorOutput = false)
    (kvP : List Char → KVal → List Char) (msg : Msg)
    (sink : List Char → Nat × Option E)
    (hT : escChar ∉ msg.text) (hP : ∀ k v, escChar ∉ kvP k v) :
    ∀ res calls, write w kvP msg sink = some (res, calls) →
      ∀ buf ∈ calls, escChar ∉ buf := by
  intro res calls hw buf hbuf hesc
  by_cases hsup : suppressed w.verbose (stripHeader msg.text) = true
  · rw [write_suppressed w kvP msg sink hsup] at hw
    cases hw
    simp at hbuf
  · rcases hx : extractPairs kvP msg.list with _ | kvs
    · rw [write_panic w kvP msg sink (Bool.not_eq_true _ ▸ hsup) hx] at hw
      cases hw
    · rw [write_normal w kvP msg sink kvs (Bool.not_eq_true _ ▸ hsup) hx] at hw
      cases hw
      rw [List.mem_singleton] at hbuf
      subst hbuf
      rw [hc] at hesc
      rcases outBytes_mem hesc with hnl | ⟨it, hit, hcit⟩
      · exact absurd hnl (by decide)
      · rcases renderLines_item_cases w.width false (hdrMatch msg.text)
            (stripHeader msg.text) kvs it hit with
          h | h | h | h | ⟨s, heq, hs⟩ | ⟨bs, pc, ccol, wfl, heq, hcol, hbsm, hpcm⟩
        · subst h
          rcases hdrMatch_mem msg.text escChar hcit with h1 | h2 | h3
          · exact hT h1
          · exact absurd h2 (by decide)
          · exact absurd h3 (by decide)
        · subst h
          exact absurd (by simpa [flatItem] using hcit) (by decide)
        · subst h
          have : escChar = ' ' := by
            have := List.eq_of_mem_replicate (by simpa [flatItem] using hcit)
            exact this
          exact absurd this (by decide)
        · subst h
          exact hT (stripHeader_subset msg.text escChar hcit)
        · subst heq
          obtain ⟨k, v, rfl⟩ := extractPairs_mem kvP msg.list kvs hx s hs
          exact hP k v hcit
        · subst heq
          have hcol0 : ccol = false := by
            rw [hcol]
            simp
          subst hcol0
          rw [show flatItem (Item.tok bs pc false wfl) = bs ++ pcBytes pc from by
            simp [flatItem]] at hcit
          rcases List.mem_append.mp hcit with h1 | h2
          · exact hT (stripHeader_subset msg.text escChar ((hbsm escChar h1).1))
          · cases hpcq : pc with
            | none =>
              rw [hpcq] at h2
              simp [pcBytes] at h2
            | some p =>
              rw [hpcq] at h2
              simp only [pcBytes, List.mem_singleton] at h2
              subst h2
              exact hT (stripHeader_subset msg.text escChar ((hpcm escChar hpcq).1))

/-- Witness for `c10_no_escape` on a color-disabled writer and the
record `"hello"` with no pairs. -/
theorem c10_no_escape_witness :
    ((Writer.mk 80 true false).colorOutput = false) ∧
      escChar ∉ ['h', 'e', 'l', 'l', 'o'] ∧
      ∀ buf ∈ [outBytes (renderLines 80 false
          (hdrMatch ['h', 'e', 'l', 'l', 'o'])
          (stripHeader ['h', 'e', 'l', 'l', 'o']) [])],
        escChar ∉ buf :=
  ⟨rfl, by decide,
    @c10_no_escape Nat (Writer.mk 80 true false) rfl
      (fun _ _ => []) (Msg.mk ['h', 'e', 'l', 'l', 'o'] [])
      (fun _ => (0, none)) (by decide) (fun _ _ => List.not_mem_nil _)
      (0, none)
      [outBytes (renderLines 80 false (hdrMatch ['h', 'e', 'l', 'l', 'o'])
        (stripHeader ['h', 'e', 'l', 'l', 'o']) [])]
      (by decide)⟩

/-! ### Claim C4: header stripping idempotence -/

theorem matchTime_timeBaseOk {s : List Char} {t r4 : List Char}
    (h : matchTime s = some (t, r4)) : timeBaseOk (s.take 8) = true := by
  unfold matchTime at h
  by_cases hb : timeBaseOk (s.take 8) = true
  · exact hb
  · rw [if_neg hb] at h
    cases h

theorem matchDate_dateOk {s : List Char} {d r : List Char}
    (h : matchDate s = some (d, r)) : dateOk (s.take 11) = true := by
  unfold matchDate at h
  by_cases hb : dateOk (s.take 11) = true
  · exact hb
  · rw [if_neg hb] at h
    cases h

/-- Any nonempty match of `headerRE` starts with a decimal digit, so a
remainder that does not start with a digit is never stripped further. -/
theorem hdrMatch_head_digit {s : List Char} (h : hdrMatch s ≠ []) :
    ∃ c cs, s = c :: cs ∧ c.isDigit = true := by
  cases s with
  | nil =>
    exfalso
    apply h
    rfl
  | cons c cs =>
    refine ⟨c, cs, rfl, ?_⟩
    unfold hdrMatch at h
    rcases hmd : matchDate (c :: cs) with _ | ⟨d, r⟩
    · rw [hmd] at h
      rcases hmt : matchTime (c :: cs) with _ | ⟨t, r4⟩
      · rw [hmt] at h
        exact absurd rfl h
      · have hok := matchTime_timeBaseOk hmt
        unfold timeBaseOk at hok
        simp only [Bool.and_eq_true] at hok
        have hd0 : digAt ((c :: cs).take 8) 0 = true := hok.1.1.1.1.1.1.1.2
        rw [show (c :: cs).take 8 = c :: cs.take 7 from rfl] at hd0
        simpa [digAt] using hd0
    · have hok := matchDate_dateOk hmd
      unfold dateOk at hok
      simp only [Bool.and_eq_true] at hok
      have hd0 : digAt ((c :: cs).take 11) 0 = true :=
        hok.1.1.1.1.1.1.1.1.1.1.2
      rw [show (c :: cs).take 11 = c :: cs.take 10 from rfl] at hd0
      simpa [digAt] using hd0

/-- Claim C4 fails on the text `"2024/01/02 2024/01/02 x"`: one pass
strips only the first date (the time group does not match a second date),
leaving a remainder that itself begins with a date, which a second pass
strips again. -/
theorem c4_counterexample :
    stripHeader (stripHeader
        ['2', '0', '2', '4', '/', '0', '1', '/', '0', '2', ' ',
         '2', '0', '2', '4', '/', '0', '1', '/', '0', '2', ' ', 'x']) ≠
      stripHeader
        ['2', '0', '2', '4', '/', '0', '1', '/', '0', '2', ' ',
         '2', '0', '2', '4', '/', '0', '1', '/', '0', '2', ' ', 'x'] := by
  decide

/-- C4 (amended): header extraction is idempotent for every message whose
post-strip remainder does not begin with a decimal digit; in general a
remainder that itself begins with a date or time shape is stripped again
by a second application, so extraction is not idempotent as claimed. -/
theorem c4_amended (s : List Char)
    (h : ∀ c, (stripHeader s).head? = some c → c.isDigit = false) :
    stripHeader (stripHeader s) = stripHeader s := by
  have hm : hdrMatch (stripHeader s) = [] := by
    by_contra hne
    obtain ⟨c, cs, heq, hdig⟩ := hdrMatch_head_digit hne
    have hf := h c (by rw [heq]; rfl)
    rw [hf] at hdig
    cases hdig
  show (stripHeader s).drop (hdrMatch (stripHeader s)).length = stripHeader s
  rw [hm]
  rfl

/-- Witness for `c4_amended` on `"2024/01/02 hello"`. -/
theorem c4_amended_witness :
    (∀ c, (stripHeader ['2', '0', '2', '4', '/', '0', '1', '/', '0', '2', ' ',
        'h', 'e', 'l', 'l', 'o']).head? = some c → c.isDigit = false) ∧
      stripHeader (stripHeader ['2', '0', '2', '4', '/', '0', '1', '/', '0', '2', ' ',
          'h', 'e', 'l', 'l', 'o']) =
        stripHeader ['2', '0', '2', '4', '/', '0', '1', '/', '0', '2', ' ',
          'h', 'e', 'l', 'l', 'o'] := by
  have hyp : ∀ c, (stripHeader ['2', '0', '2', '4', '/', '0', '1', '/', '0', '2', ' ',
      'h', 'e', 'l', 'l', 'o']).head? = some c → c.isDigit = false := by
    intro c hc
    have hhd : (stripHeader ['2', '0', '2', '4', '/', '0', '1', '/', '0', '2', ' ',
        'h', 'e', 'l', 'l', 'o']).head? = some 'h' := by decide
    rw [hhd] at hc
    cases hc
    decide
  exact ⟨hyp, c4_amended _ hyp⟩

/-! ### Claim C5: verbosity gating -/

theorem extendLast_ne_nil (M : List (List Item)) (e : List Item) :
    extendLast M e ≠ [] := by
  cases M with
  | nil => simp [extendLast]
  | cons l ls =>
    cases ls with
    | nil => simp [extendLast]
    | cons l' ls' => simp [extendLast]

theorem renderLines_ne_nil (width : Nat) (color : Bool) (hdr text : List Char)
    (kvs : List (List Char)) : renderLines width color hdr text kvs ≠ [] := by
  intro hcontra
  have hrl : renderLines width color hdr text kvs =
      extendLast ((Item.hdrI hdr ::
          (msgOut width (indentLenOf hdr) color text hdr.length).1.ext) ::
          (msgOut width (indentLenOf hdr) color text hdr.length).1.more)
        (kvLoop width (indentLenOf hdr) kvs
          (msgOut width (indentLenOf hdr) color text hdr.length).1.col
          (msgOut width (indentLenOf hdr) color text hdr.length).2).ext ++
      (kvLoop width (indentLenOf hdr) kvs
        (msgOut width (indentLenOf hdr) color text hdr.length).1.col
        (msgOut width (indentLenOf hdr) color text hdr.length).2).more := rfl
  rw [hrl] at hcontra
  obtain ⟨h1, _⟩ := List.append_eq_nil.mp hcontra
  exact extendLast_ne_nil _ _ h1

theorem outBytes_ne_nil {lines : List (List Item)} (h : lines ≠ []) :
    outBytes lines ≠ [] := by
  cases lines with
  | nil => exact absurd rfl h
  | cons L Ls =>
    intro hcontra
    unfold outBytes at hcontra
    rw [List.map_cons, List.flatten_cons] at hcontra
    obtain ⟨h1, _⟩ := List.append_eq_nil.mp hcontra
    obtain ⟨_, h2⟩ := List.append_eq_nil.mp h1
    cases h2

/-- C5: when verbose mode is off and the post-strip text begins with
`"debug:"` or `"trace:"`, `Write` emits nothing and returns `(0, nil)`
without touching the sink; with verbose mode on, the same record goes
through the normal rendering, whose buffer is handed to the sink and is
never empty. -/
theorem c5_verbosity {E : Type} (width : Nat) (color : Bool)
    (kvP : List Char → KVal → List Char) (msg : Msg)
    (sink : List Char → Nat × Option E) (kvs : List (List Char))
    (hpre : debugMark.isPrefixOf (stripHeader msg.text) = true ∨
      traceMark.isPrefixOf (stripHeader msg.text) = true)
    (hx : extractPairs kvP msg.list = some kvs) :
    write (Writer.mk width false color) kvP msg sink = some ((0, none), []) ∧
    ∃ buf, write (Writer.mk width true color) kvP msg sink =
        some (sink buf, [buf]) ∧ buf ≠ [] ∧
      buf = outBytes (renderLines width color (hdrMatch msg.text)
        (stripHeader msg.text) kvs) := by
  constructor
  · apply write_suppressed
    show (!false && (debugMark.isPrefixOf (stripHeader msg.text) ||
      traceMark.isPrefixOf (stripHeader msg.text))) = true
    rcases hpre with h | h <;> simp [h]
  · refine ⟨outBytes (renderLines width color (hdrMatch msg.text)
      (stripHeader msg.text) kvs), ?_, ?_, rfl⟩
    · exact write_normal (Writer.mk width true color) kvP msg sink kvs rfl hx
    · exact outBytes_ne_nil (renderLines_ne_nil width color (hdrMatch msg.text)
        (stripHeader msg.text) kvs)

/-- Witness for `c5_verbosity` on the record `"debug: detail"`. -/
theorem c5_verbosity_witness :
    ((debugMark.isPrefixOf (stripHeader ['d', 'e', 'b', 'u', 'g', ':', ' ',
        'd', 'e', 't', 'a', 'i', 'l']) = true ∨
      traceMark.isPrefixOf (stripHeader ['d', 'e', 'b', 'u', 'g', ':', ' ',
        'd', 'e', 't', 'a', 'i', 'l']) = true)) ∧
      @write Nat (Writer.mk 80 false false) (fun k _ => k)
        (Msg.mk ['d', 'e', 'b', 'u', 'g', ':', ' ', 'd', 'e', 't', 'a', 'i', 'l'] [])
        (fun buf => (buf.length, none)) = some ((0, none), []) := by
  have hpre : debugMark.isPrefixOf (stripHeader ['d', 'e', 'b', 'u', 'g', ':', ' ',
      'd', 'e', 't', 'a', 'i', 'l']) = true ∨
      traceMark.isPrefixOf (stripHeader ['d', 'e', 'b', 'u', 'g', ':', ' ',
        'd', 'e', 't', 'a', 'i', 'l']) = true := Or.inl (by decide)
  exact ⟨hpre,
    (c5_verbosity 80 false (fun k _ => k)
      (Msg.mk ['d', 'e', 'b', 'u', 'g', ':', ' ', 'd', 'e', 't', 'a', 'i', 'l'] [])
      (fun buf => (buf.length, none)) [] hpre (by decide)).1⟩

/-! ### Claim C8: sink error propagation -/

/-- C8: when the underlying stream's write returns an error, `Write`
returns that error unchanged together with the reported byte count, the
sink is called exactly once with the assembled buffer (no retry), and
nothing further is emitted for the record. -/
theorem c8_error_propagation {E : Type} (width : Nat) (verbose color : Bool)
    (kvP : List Char → KVal → List Char) (msg : Msg)
    (sink : List Char → Nat × Option E) (kvs : List (List Char))
    (n : Nat) (e : E)
    (hsup : suppressed verbose (stripHeader msg.text) = false)
    (hx : extractPairs kvP msg.list = some kvs)
    (hs : sink (outBytes (renderLines width color (hdrMatch msg.text)
      (stripHeader msg.text) kvs)) = (n, some e)) :
    write (Writer.mk width verbose color) kvP msg sink =
      some ((n, some e),
        [outBytes (renderLines width color (hdrMatch msg.text)
          (stripHeader msg.text) kvs)]) := by
  rw [write_normal (Writer.mk width verbose color) kvP msg sink kvs hsup hx, hs]

/-- Witness for `c8_error_propagation` with a sink that fails with error
code 7 after 3 bytes. -/
theorem c8_error_propagation_witness :
    suppressed false (stripHeader ['h', 'i']) = false ∧
      write (Writer.mk 80 false false) (fun k _ => k) (Msg.mk ['h', 'i'] [])
          (fun _ => (3, some (7 : Nat))) =
        some ((3, some 7),
          [outBytes (renderLines 80 false (hdrMatch ['h', 'i'])
            (stripHeader ['h', 'i']) [])]) :=
  ⟨by decide,
    c8_error_propagation 80 false false (fun k _ => k) (Msg.mk ['h', 'i'] [])
      (fun _ => (3, some 7)) [] 3 7 (by decide) (by decide) rfl⟩

/-! ### Claim C9: panic-freedom of the pair loop -/

/-- Precondition of claim C9 in its own terms: the parsed list has even
length and every even-indexed element is a string. -/
def evenStrList (l : List KVal) : Prop :=
  l.length % 2 = 0 ∧
    ∀ i, i % 2 = 0 → ∀ x, l[i]? = some x → ∃ s, x = KVal.str s

theorem validList_iff : ∀ l : List KVal, validList l = true ↔ evenStrList l
  | [] => by
    constructor
    · intro _
      exact ⟨rfl, fun i _ x hx => by simp at hx⟩
    · intro _
      rfl
  | [KVal.str _] => by
    constructor
    · intro h
      cases h
    · rintro ⟨hlen, _⟩
      simp at hlen
  | [KVal.other] => by
    constructor
    · intro h
      cases h
    · rintro ⟨hlen, _⟩
      simp at hlen
  | KVal.str k :: v :: rest => by
    rw [show validList (KVal.str k :: v :: rest) = validList rest from rfl]
    rw [validList_iff rest]
    constructor
    · rintro ⟨hlen, hidx⟩
      constructor
      · simp only [List.length_cons]
        omega
      · intro i hi x hx
        cases i with
        | zero =>
          rw [List.getElem?_cons_zero] at hx
          cases hx
          exact ⟨k, rfl⟩
        | succ i' =>
          cases i' with
          | zero => exact absurd hi (by decide)
          | succ i'' =>
            rw [List.getElem?_cons_succ, List.getElem?_cons_succ] at hx
            exact hidx i'' (by omega) x hx
    · rintro ⟨hlen, hidx⟩
      constructor
      · simp only [List.length_cons] at hlen
        omega
      · intro i hi x hx
        exact hidx (i + 2) (by omega) x
          (by rw [List.getElem?_cons_succ, List.getElem?_cons_succ]; exact hx)
  | KVal.other :: v :: rest => by
    constructor
    · intro h
      cases h
    · rintro ⟨_, hidx⟩
      exfalso
      obtain ⟨s, hs⟩ := hidx 0 rfl KVal.other (by rw [List.getElem?_cons_zero])
      cases hs

theorem extractPairs_isSome (kvP : List Char → KVal → List Char) :
    ∀ l : List KVal, (extractPairs kvP l).isSome = validList l
  | [] => rfl
  | [KVal.str _] => rfl
  | [KVal.other] => rfl
  | KVal.str k :: v :: rest => by
    show ((extractPairs kvP rest).map (fun l => kvP k v :: l)).isSome = validList rest
    rw [← extractPairs_isSome kvP rest]
    cases extractPairs kvP rest <;> rfl
  | KVal.other :: _ :: _ => rfl

/-- C9: for every input whose parsed key/value list has even length and
whose even-indexed elements are strings, `Write` runs to completion
without panicking — for any text, width, flags and sink — and this
precondition is exactly the condition under which the pair-rendering
loop's `msg.List[i+1]` index and `msg.List[i].(string)` assertion are
safe. -/
theorem c9_no_panic {E : Type} (width : Nat) (verbose color : Bool)
    (kvP : List Char → KVal → List Char) (msg : Msg)
    (sink : List Char → Nat × Option E) :
    (evenStrList msg.list →
      (write (Writer.mk width verbose color) kvP msg sink).isSome = true) ∧
    ((extractPairs kvP msg.list).isSome = true ↔ evenStrList msg.list) := by
  have hiff : (extractPairs kvP msg.list).isSome = true ↔ evenStrList msg.list := by
    rw [extractPairs_isSome]
    exact validList_iff msg.list
  refine ⟨?_, hiff⟩
  intro h
  by_cases hsup : suppressed verbose (stripHeader msg.text) = true
  · rw [write_suppressed (Writer.mk width verbose color) kvP msg sink hsup]
    rfl
  · obtain ⟨kvs, hkvs⟩ := Option.isSome_iff_exists.mp (hiff.mpr h)
    rw [write_normal (Writer.mk width verbose color) kvP msg sink kvs
      (Bool.not_eq_true _ ▸ hsup) hkvs]
    rfl

/-- Witness for `c9_no_panic` on a two-element list. -/
theorem c9_no_panic_witness :
    evenStrList [KVal.str ['a'], KVal.other] ∧
      (@write Nat (Writer.mk 80 false false) (fun k _ => k)
        (Msg.mk ['h', 'i'] [KVal.str ['a'], KVal.other])
        (fun buf => (buf.length, none))).isSome = true := by
  have hpre : evenStrList [KVal.str ['a'], KVal.other] := by
    refine ⟨rfl, ?_⟩
    intro i hi x hx
    cases i with
    | zero =>
      rw [List.getElem?_cons_zero] at hx
      cases hx
      exact ⟨['a'], rfl⟩
    | succ i' =>
      cases i' with
      | zero => exact absurd hi (by decide)
      | succ i'' => simp at hx
  exact ⟨hpre,
    (c9_no_panic 80 false false (fun k _ => k)
      (Msg.mk ['h', 'i'] [KVal.str ['a'], KVal.other])
      (fun buf => (buf.length, none))).1 hpre⟩

/-- Witness for `c6_order` with one rendered pair. -/
theorem c6_order_witness :
    extractPairs (fun k _ => k) [KVal.str ['a'], KVal.other] = some [['a']] ∧
      kvTexts (renderLines 80 false (hdrMatch ['h', 'i'])
        (stripHeader ['h', 'i']) [['a']]) = [['a']] :=
  ⟨by decide,
    c6_order 80 false ['h', 'i'] (fun k _ => k)
      [KVal.str ['a'], KVal.other] [['a']] (by decide)⟩

end Kvlog
